import Mathlib

/-!
# encodeInput: the S-Record and assembly encoders of `src/convert.c`

A shallow embedding of `write_srec`, `convert_to_srec` and `convert_to_assembly`.

Conventions of the embedding.

* A C string (`char *` up to its terminating NUL) is a `List Char`; `strcat` is `++`.
* A byte buffer (`uint8_t *` with its length) is a `List Nat`; theorems that depend on the
  elements being bytes assume `b < 256` for each element.
* `uint8_t` and `uint32_t` arithmetic is arithmetic on `Nat` reduced modulo `2^8` and `2^32`
  at the places where the C code stores into a variable of that type.
* `size_t` values (`data_size`, `index`, `remaining`, `i`, `j`) are natural numbers: a buffer
  that exists in memory is shorter than the range of `size_t`, and `remaining -= data_len` is
  only executed with `data_len <= remaining`.
* A function returning `NULL` returns `none`.  Passing `NULL` on to `strcat` is a failure of
  the caller, also `none`.
* The functions return the text that the `sprintf`/`snprintf`/`strcat` calls format; the sizes
  of the buffers handed to `malloc` are separate definitions (`write_srec_buffer_size`,
  `convert_to_srec_buffer_size`, `convert_to_assembly_buffer_size`).
* Loops whose trip count depends on the input run on a fuel argument; the callers pass the
  buffer length, and running out of fuel is reported as `none`.
-/

namespace EncodeInput

/-! ## printf conversions -/

/-- The digit that the `X` conversion of printf prints for a value below 16. -/
def hexDigit (d : Nat) : Char :=
  match d with
  | 0 => '0' | 1 => '1' | 2 => '2' | 3 => '3'
  | 4 => '4' | 5 => '5' | 6 => '6' | 7 => '7'
  | 8 => '8' | 9 => '9' | 10 => 'A' | 11 => 'B'
  | 12 => 'C' | 13 => 'D' | 14 => 'E' | _ => 'F'

/-- Digit loop of the `X` conversion: least significant digit first, pushed onto `acc`. -/
def hexDigitsAux : Nat → Nat → List Char → List Char
  | 0, _, acc => acc
  | fuel + 1, v, acc =>
    let acc1 := hexDigit (v % 16) :: acc
    if v / 16 = 0 then acc1 else hexDigitsAux fuel (v / 16) acc1

/-- The digits printed by `%X` without any padding: as many as the value needs, at least one. -/
def hexDigits (v : Nat) : List Char :=
  hexDigitsAux (v + 1) v []

/-- The conversion `%<width>X` of printf, padded on the left with `pad` up to the minimum
field width (`pad` is `'0'` for `%02X` and `%04X`, a blank for `%1X`). A value that needs more
digits than `width` is printed in full. -/
def fmtX (pad : Char) (width v : Nat) : List Char :=
  let ds := hexDigits v
  List.replicate (width - ds.length) pad ++ ds

/-! ## write_srec -/

/-- Size of the buffer `write_srec` allocates: `10 + (data_len * 2)`. -/
def write_srec_buffer_size (data_len : Nat) : Nat :=
  10 + data_len * 2

/-- Model of `write_srec(type, address, data, data_len)`. `data` is the memory `data` points
to, of which the first `data_len` bytes are read (the caller provides at least that many;
`NULL` with `data_len = 0` is the empty list). -/
def write_srec (type address : Nat) (data : List Nat) (data_len : Nat) : Option (List Char) :=
  let count? : Option Nat :=
    match type with
    | 0 => some ((data_len + 3) % 256)
    | 1 => some ((data_len + 3) % 256)
    | 5 => some 3
    | 9 => some 3
    | _ => none
  match count? with
  | none => none
  | some count =>
    let sum := count
    let sum :=
      if type = 1 then
        (sum + ((address / 65536) % 256 + (address / 256) % 256 + address % 256)) % 4294967296
      else
        (sum + ((address / 256) % 256 + address % 256)) % 4294967296
    let sum := (data.take data_len).foldl (fun s b => (s + b) % 4294967296) sum
    let checksum := (4294967295 - sum) % 256
    let buffer := ['S'] ++ fmtX ' ' 1 type ++ fmtX '0' 2 count ++ fmtX '0' 4 address
    let buffer := (data.take data_len).foldl (fun buf b => buf ++ fmtX '0' 2 b) buffer
    some (buffer ++ (fmtX '0' 2 checksum ++ ['\n']))

/-! ## convert_to_srec -/

/-- The macro `FIRST_NAME` of `convert.h`. -/
def FIRST_NAME : List Char := "DAVID".toList

/-- The cast `(const uint8_t *)FIRST_NAME`: the characters of the literal as bytes. -/
def FIRST_NAME_bytes : List Nat := FIRST_NAME.map Char.toNat

/-- Size of the result buffer `convert_to_srec` allocates: `data_size * 16 + 64`. -/
def convert_to_srec_buffer_size (data_size : Nat) : Nat :=
  data_size * 16 + 64

/-- The variables of `convert_to_srec` that its loop updates. `s1_records` is not a variable of
the C code: it logs, for each call `write_srec(1, address, &data[index], data_len)` of the
loop, the address and the `data_len` bytes handed over. -/
structure SrecState where
  index : Nat
  address : Nat
  remaining : Nat
  s1_count : Nat
  result_buffer : List Char
  s1_records : List (Nat × List Nat)

/-- The `for` loop of `convert_to_srec`. One unit of fuel per iteration. -/
def srec_loop (data : List Nat) : Nat → SrecState → Option SrecState
  | 0, st => if st.remaining > 0 then none else some st
  | fuel + 1, st =>
    if st.remaining > 0 then
      let data_len := (if st.remaining > 16 then 16 else st.remaining) % 256
      match write_srec 1 st.address (data.drop st.index) data_len with
      | none => none
      | some srec_line =>
        srec_loop data fuel
          { index := st.index + data_len
            address := (st.address + data_len) % 4294967296
            remaining := st.remaining - data_len
            s1_count := (st.s1_count + 1) % 4294967296
            result_buffer := st.result_buffer ++ srec_line
            s1_records := st.s1_records ++ [(st.address, (data.drop st.index).take data_len)] }
    else some st

/-- Model of `convert_to_srec(data, data_size)` with `data_size = data.length`, returning all
the variables at the `return`. -/
def convert_to_srec_state (data : List Nat) : Option SrecState :=
  match write_srec 0 0 FIRST_NAME_bytes (FIRST_NAME.length % 256) with
  | none => none
  | some header_line =>
    match srec_loop data data.length
        { index := 0, address := 0, remaining := data.length, s1_count := 0
          result_buffer := [] ++ header_line, s1_records := [] } with
    | none => none
    | some st =>
      match write_srec 5 st.s1_count [] 0 with
      | none => none
      | some s5_line =>
        match write_srec 9 0 [] 0 with
        | none => none
        | some s9_line =>
          some { st with result_buffer := st.result_buffer ++ s5_line ++ s9_line }

/-- The text `convert_to_srec` returns. -/
def convert_to_srec (data : List Nat) : Option (List Char) :=
  (convert_to_srec_state data).map (fun st => st.result_buffer)

/-- The Data16 records `convert_to_srec` emits, as (address, payload), in emission order. -/
def convert_to_srec_records (data : List Nat) : Option (List (Nat × List Nat)) :=
  (convert_to_srec_state data).map (fun st => st.s1_records)

/-! ## convert_to_assembly -/

/-- The macro `LINE_BUFFER_SIZE` of `convert.h`. -/
def LINE_BUFFER_SIZE : Nat := 86

/-- What `snprintf(dst, size, ...)` stores before the NUL when the formatted text is `text`:
at most `size - 1` characters. -/
def snprintf (size : Nat) (text : List Char) : List Char :=
  text.take (size - 1)

/-- The inner loop of `convert_to_assembly` for the line starting at offset `i`: the content of
`line_buffer` after the loop. -/
def assembly_line (data : List Nat) (i line_data_len : Nat) : List Char :=
  (List.range line_data_len).foldl
    (fun line_buffer j =>
      line_buffer ++
        snprintf (LINE_BUFFER_SIZE - line_buffer.length)
          (['$'] ++ fmtX '0' 2 (data.getD (i + j) 0) ++
            (if j = line_data_len - 1 then ['\n'] else [',', ' '])))
    "dc.b\t".toList

/-- The outer loop of `convert_to_assembly`. One unit of fuel per iteration. -/
def assembly_loop (data : List Nat) : Nat → Nat → List Char → Option (List Char)
  | 0, i, result_buffer => if i < data.length then none else some result_buffer
  | fuel + 1, i, result_buffer =>
    if i < data.length then
      let line_data_len := if i + 16 > data.length then data.length - i else 16
      assembly_loop data fuel (i + 16) (result_buffer ++ assembly_line data i line_data_len)
    else some result_buffer

/-- Size of the result buffer `convert_to_assembly` allocates: `data_size * 16`. -/
def convert_to_assembly_buffer_size (data_size : Nat) : Nat :=
  data_size * 16

/-- Model of `convert_to_assembly(data, data_size)` with `data_size = data.length`.
`malloc_ok` is whether `malloc` returned a non-NULL pointer. -/
def convert_to_assembly (malloc_ok : Bool) (data : List Nat) : Option (List Char) :=
  if malloc_ok then assembly_loop data data.length 0 [] else none

/-! ## Reading the output back, and the formats as the specification words them -/

/-- Value of one uppercase hexadecimal digit. -/
def hexDigitVal (c : Char) : Nat :=
  if c = '0' then 0 else if c = '1' then 1 else if c = '2' then 2 else if c = '3' then 3
  else if c = '4' then 4 else if c = '5' then 5 else if c = '6' then 6 else if c = '7' then 7
  else if c = '8' then 8 else if c = '9' then 9 else if c = 'A' then 10 else if c = 'B' then 11
  else if c = 'C' then 12 else if c = 'D' then 13 else if c = 'E' then 14 else 15

/-- Value of a hexadecimal field, most significant digit first. -/
def hexVal (cs : List Char) : Nat :=
  cs.foldl (fun acc c => 16 * acc + hexDigitVal c) 0

/-- The lines of a text: the pieces between newlines, without the newlines. -/
def textLines : List Char → List (List Char)
  | [] => []
  | c :: cs =>
    if c = '\n' then [] :: textLines cs
    else
      match textLines cs with
      | [] => [[c]]
      | l :: ls => (c :: l) :: ls

/-- The lines of a text carrying the record tag `S<digit>`. -/
def recordLines (digit : Char) (text : List Char) : List (List Char) :=
  (textLines text).filter (fun l => l.take 2 = ['S', digit])

/-- A value as exactly `width` uppercase hexadecimal digits, zero-padded. -/
def hexN : Nat → Nat → List Char
  | 0, _ => []
  | width + 1, v => hexN width (v / 16) ++ [hexDigit (v % 16)]

/-- The checksum as the specification defines it: the one's complement of the low byte of
byte count + address bytes + payload bytes. -/
def srec_checksum_spec (byte_count address : Nat) (payload : List Nat) : Nat :=
  255 - (byte_count + address / 256 + address % 256 + payload.sum) % 256

/-- The record line as the grammar of the specification gives it. -/
def srec_line_spec (kind address : Nat) (payload : List Nat) : List Char :=
  ['S'] ++ hexN 1 kind ++ hexN 2 (payload.length + 3) ++ hexN 4 address ++
    payload.flatMap (hexN 2) ++
    hexN 2 (srec_checksum_spec (payload.length + 3) address payload) ++ ['\n']

/-- Concatenation of record lines in order; no text when one of them is missing. -/
def concatLines : List (Option (List Char)) → Option (List Char)
  | [] => some []
  | none :: _ => none
  | some a :: ls =>
    match concatLines ls with
    | none => none
    | some b => some (a ++ b)

/-- The payload of the `i`-th chunk: bytes `16*i` up to but excluding `min (16*i+16) n`. -/
def chunk (data : List Nat) (i : Nat) : List Nat :=
  (data.drop (16 * i)).take (min (16 * i + 16) data.length - 16 * i)

/-- The SREC document as the specification describes it: header, one Data16 record per chunk
at its offset, the Count16 record, the terminator. -/
def srec_document_spec (data : List Nat) : Option (List Char) :=
  concatLines
    ([write_srec 0 0 FIRST_NAME_bytes 5] ++
      (List.range ((data.length + 15) / 16)).map
        (fun i => write_srec 1 (16 * i) (chunk data i) (chunk data i).length) ++
      [write_srec 5 ((data.length + 15) / 16) [] 0, write_srec 9 0 [] 0])

/-- One line of the assembly listing for a group of bytes. -/
def assembly_line_spec (group : List Nat) : List Char :=
  "dc.b\t".toList ++
    ", ".toList.intercalate (group.map (fun b => '$' :: hexN 2 b)) ++ ['\n']

/-- The assembly listing as the specification describes it. -/
def assembly_listing_spec (data : List Nat) : List Char :=
  (List.range ((data.length + 15) / 16)).flatMap (fun i => assembly_line_spec (chunk data i))

/-- The value `write_srec` stores in `count` for a supported record type. -/
def srecCount (type data_len : Nat) : Nat :=
  if type = 0 ∨ type = 1 then (data_len + 3) % 256 else 3

/-- The value `write_srec` stores in `checksum` for a supported record type, given the
`data_len` bytes `payload` it reads. -/
def srecChecksum (type address data_len : Nat) (payload : List Nat) : Nat :=
  (4294967295 -
    (srecCount type data_len + (if type = 1 then (address / 65536) % 256 else 0) +
      (address / 256) % 256 + address % 256 + payload.sum) % 4294967296) % 256

/-- The characters `write_srec` formats before the checksum, for a supported record type. -/
def srecBody (type address data_len : Nat) (payload : List Nat) : List Char :=
  ['S'] ++ fmtX ' ' 1 type ++ fmtX '0' 2 (srecCount type data_len) ++ fmtX '0' 4 address ++
    payload.flatMap (fmtX '0' 2)

/-- The line `write_srec` returns for a supported record type. -/
def srecLine (type address data_len : Nat) (payload : List Nat) : List Char :=
  srecBody type address data_len payload ++
    (fmtX '0' 2 (srecChecksum type address data_len payload) ++ ['\n'])

/-- The line `write_srec` returns for a supported record type, without its newline. -/
def srecLineText (type address data_len : Nat) (payload : List Nat) : List Char :=
  srecBody type address data_len payload ++
    fmtX '0' 2 (srecChecksum type address data_len payload)

/-- The line of a logged Data16 record. -/
def s1Line (r : Nat × List Nat) : List Char :=
  srecLine 1 r.1 r.2.length r.2

/-- The Data16 records the loop of `convert_to_srec` emits from a state with the given
`address`, `index` and `remaining`. -/
def loopRecords (data : List Nat) (address index remaining : Nat) : List (Nat × List Nat) :=
  (List.range ((remaining + 15) / 16)).map
    (fun i => ((address + 16 * i) % 4294967296, (data.drop (index + 16 * i)).take 16))

/-- The text the `snprintf` of `convert_to_assembly` formats for byte `j` of the line that
starts at offset `i` and holds `line_data_len` bytes. -/
def asmToken (data : List Nat) (i line_data_len j : Nat) : List Char :=
  ['$'] ++ fmtX '0' 2 (data.getD (i + j) 0) ++
    (if j = line_data_len - 1 then ['\n'] else [',', ' '])

/-- Decoding of a hexadecimal field into bytes, two digits per byte. -/
def hexBytes : List Char → List Nat
  | a :: b :: rest => (16 * hexDigitVal a + hexDigitVal b) :: hexBytes rest
  | _ => []

/-- The payload field of a record line (without its newline) that has a 4-digit address: the
characters between the address and the 2-digit checksum. -/
def payloadField (line : List Char) : List Char :=
  (line.drop 8).take (line.length - 10)

/-- The inner loop of `convert_to_assembly` with an unbounded line buffer: `sprintf` in place
of `snprintf`. -/
def assembly_line_unbounded (data : List Nat) (i line_data_len : Nat) : List Char :=
  (List.range line_data_len).foldl
    (fun line_buffer j =>
      line_buffer ++
        (['$'] ++ fmtX '0' 2 (data.getD (i + j) 0) ++
          (if j = line_data_len - 1 then ['\n'] else [',', ' '])))
    "dc.b\t".toList

/-- The outer loop of `convert_to_assembly` over the unbounded line buffer. -/
def assembly_loop_unbounded (data : List Nat) : Nat → Nat → List Char → Option (List Char)
  | 0, i, result_buffer => if i < data.length then none else some result_buffer
  | fuel + 1, i, result_buffer =>
    if i < data.length then
      let line_data_len := if i + 16 > data.length then data.length - i else 16
      assembly_loop_unbounded data fuel (i + 16)
        (result_buffer ++ assembly_line_unbounded data i line_data_len)
    else some result_buffer

/-- The algorithm of `convert_to_assembly` run with an unbounded line buffer. -/
def convert_to_assembly_unbounded (malloc_ok : Bool) (data : List Nat) : Option (List Char) :=
  if malloc_ok then assembly_loop_unbounded data data.length 0 [] else none

/-- One line of the assembly listing for a group of bytes, without its newline. -/
def assembly_line_text_spec (group : List Nat) : List Char :=
  "dc.b\t".toList ++ ", ".toList.intercalate (group.map (fun b => '$' :: hexN 2 b))

/-- The chunk length the loop of `convert_to_srec` computes from `remaining`:
`data_len = remaining > 16 ? 16 : remaining`, stored in a `uint8_t`. -/
def srec_data_len (remaining : Nat) : Nat :=
  (if remaining > 16 then 16 else remaining) % 256

/-- The state of the loop of `convert_to_srec` after one iteration that appended
`srec_line`: the body's `strcat` and the increments of the `for` statement. -/
def srec_advance (data : List Nat) (st : SrecState) (srec_line : List Char) : SrecState :=
  { index := st.index + srec_data_len st.remaining
    address := (st.address + srec_data_len st.remaining) % 4294967296
    remaining := st.remaining - srec_data_len st.remaining
    s1_count := (st.s1_count + 1) % 4294967296
    result_buffer := st.result_buffer ++ srec_line
    s1_records :=
      st.s1_records ++ [(st.address, (data.drop st.index).take (srec_data_len st.remaining))] }

/-- The state in which `convert_to_srec` enters its loop, the header line being in the
result buffer. -/
def srec_init (data : List Nat) (header_line : List Char) : SrecState :=
  { index := 0, address := 0, remaining := data.length, s1_count := 0
    result_buffer := [] ++ header_line, s1_records := [] }

/-! ## Lemmas on the printf conversions -/

theorem hexDigitsAux_acc (fuel v : Nat) (acc : List Char) :
    hexDigitsAux fuel v acc = hexDigitsAux fuel v [] ++ acc := by
  induction fuel generalizing v acc with
  | zero => simp [hexDigitsAux]
  | succ fuel ih =>
    simp only [hexDigitsAux]
    split
    · simp
    · rw [ih (v / 16) (hexDigit (v % 16) :: acc), ih (v / 16) [hexDigit (v % 16)]]
      simp

theorem hexDigitsAux_fuel (f1 f2 v : Nat) (acc : List Char) (h1 : v < f1) (h2 : v < f2) :
    hexDigitsAux f1 v acc = hexDigitsAux f2 v acc := by
  induction f1 generalizing f2 v acc with
  | zero => omega
  | succ f1 ih =>
    cases f2 with
    | zero => omega
    | succ f2 =>
      simp only [hexDigitsAux]
      split
      · rfl
      · rename_i hv
        have hlt : v / 16 < v := Nat.div_lt_self (by omega) (by omega)
        exact ih f2 (v / 16) _ (by omega) (by omega)

theorem hexDigits_lt (v : Nat) (h : v < 16) : hexDigits v = [hexDigit v] := by
  have h1 : v / 16 = 0 := by omega
  have h2 : v % 16 = v := by omega
  simp [hexDigits, hexDigitsAux, h1, h2]

theorem hexDigits_ge (v : Nat) (h : 16 ≤ v) :
    hexDigits v = hexDigits (v / 16) ++ [hexDigit (v % 16)] := by
  have h1 : v / 16 ≠ 0 := by omega
  have hlt : v / 16 < v := Nat.div_lt_self (by omega) (by omega)
  have e : hexDigitsAux (v + 1) v [] = hexDigitsAux v (v / 16) [hexDigit (v % 16)] := by
    simp [hexDigitsAux, h1]
  unfold hexDigits
  rw [e, hexDigitsAux_acc, hexDigitsAux_fuel v (v / 16 + 1) (v / 16) [] hlt (by omega)]

theorem hexN_length (w v : Nat) : (hexN w v).length = w := by
  induction w generalizing v with
  | zero => rfl
  | succ w ih => simp [hexN, ih]

theorem hexN_zero (w : Nat) : hexN w 0 = List.replicate w '0' := by
  induction w with
  | zero => rfl
  | succ w ih =>
    simp only [hexN, Nat.zero_div, ih, Nat.zero_mod]
    rw [List.replicate_succ']
    rfl

theorem hexDigits_length_pos (v : Nat) : 1 ≤ (hexDigits v).length := by
  by_cases h : v < 16
  · simp [hexDigits_lt v h]
  · rw [hexDigits_ge v (by omega)]
    simp

/-- For a value that fits `width` digits, `%0<width>X` prints exactly the `width` digits. -/
theorem fmtX_zero_eq_hexN (w v : Nat) (hw : 1 ≤ w) (hv : v < 16 ^ w) :
    fmtX '0' w v = hexN w v := by
  induction w generalizing v with
  | zero => omega
  | succ w ih =>
    by_cases h : v < 16
    · have h1 : v / 16 = 0 := by omega
      have h2 : v % 16 = v := by omega
      simp [fmtX, hexDigits_lt v h, hexN, h1, h2, hexN_zero]
    · have hw1 : 1 ≤ w := by
        rcases Nat.eq_zero_or_pos w with h0 | h0
        · subst h0
          simp at hv
          omega
        · exact h0
      have hdiv : v / 16 < 16 ^ w := by
        rw [Nat.div_lt_iff_lt_mul (by norm_num)]
        rw [pow_succ] at hv
        exact hv
      have := ih (v / 16) hw1 hdiv
      simp only [fmtX, hexN] at this ⊢
      rw [← this, hexDigits_ge v (by omega)]
      simp

theorem fmtX_blank_one (v : Nat) (hv : v < 16) : fmtX ' ' 1 v = hexN 1 v := by
  have h2 : v % 16 = v := by omega
  simp [fmtX, hexDigits_lt v hv, hexN, h2]

theorem fmtX_02 (v : Nat) (hv : v < 256) : fmtX '0' 2 v = hexN 2 v :=
  fmtX_zero_eq_hexN 2 v (by norm_num) (by norm_num; exact hv)

theorem fmtX_04 (v : Nat) (hv : v < 65536) : fmtX '0' 4 v = hexN 4 v :=
  fmtX_zero_eq_hexN 4 v (by norm_num) (by norm_num; exact hv)

theorem hexDigit_ne_newline (d : Nat) : hexDigit d ≠ '\n' := by
  unfold hexDigit
  split <;> decide

theorem hexDigitVal_hexDigit (d : Nat) (h : d < 16) : hexDigitVal (hexDigit d) = d := by
  interval_cases d <;> rfl

theorem hexVal_append_singleton (l : List Char) (c : Char) :
    hexVal (l ++ [c]) = 16 * hexVal l + hexDigitVal c := by
  simp [hexVal, List.foldl_append]

/-- Reading a `width`-digit field back gives the value printed. -/
theorem hexVal_hexN (w v : Nat) (hv : v < 16 ^ w) : hexVal (hexN w v) = v := by
  induction w generalizing v with
  | zero =>
    simp at hv
    subst hv
    rfl
  | succ w ih =>
    have hdiv : v / 16 < 16 ^ w := by
      rw [Nat.div_lt_iff_lt_mul (by norm_num)]
      rw [pow_succ] at hv
      exact hv
    rw [hexN, hexVal_append_singleton, ih (v / 16) hdiv,
      hexDigitVal_hexDigit _ (Nat.mod_lt _ (by norm_num))]
    omega

/-! ## Lemmas on write_srec -/

theorem foldl_add_mod (m : Nat) (l : List Nat) (s : Nat) :
    l.foldl (fun s b => (s + b) % m) (s % m) = (s + l.sum) % m := by
  induction l generalizing s with
  | nil => simp
  | cons b l ih =>
    simp only [List.foldl_cons, List.sum_cons]
    rw [Nat.mod_add_mod, ih (s + b), Nat.add_assoc]

theorem foldl_append_flatMap (f : Nat → List Char) (l : List Nat) (init : List Char) :
    l.foldl (fun buf b => buf ++ f b) init = init ++ l.flatMap f := by
  induction l generalizing init with
  | nil => simp
  | cons b l ih => simp [ih]

/-- What `write_srec` returns for each supported record type. -/
theorem write_srec_supported (type address : Nat) (data : List Nat) (data_len : Nat)
    (hk : type = 0 ∨ type = 1 ∨ type = 5 ∨ type = 9) :
    write_srec type address data data_len =
      some (srecLine type address data_len (data.take data_len)) := by
  unfold srecLine
  rcases hk with rfl | rfl | rfl | rfl <;>
    simp [write_srec, srecBody, srecChecksum, srecCount, foldl_append_flatMap] <;>
    rw [foldl_add_mod] <;>
    simp [Nat.add_assoc]

theorem flatMap_fmtX_bytes (data : List Nat) (hb : ∀ b ∈ data, b < 256) :
    data.flatMap (fmtX '0' 2) = data.flatMap (hexN 2) := by
  induction data with
  | nil => rfl
  | cons b l ih =>
    simp only [List.flatMap_cons]
    rw [fmtX_02 b (hb b (by simp)), ih (fun c hc => hb c (by simp [hc]))]

theorem flatMap_hexN_length (data : List Nat) : (data.flatMap (hexN 2)).length = 2 * data.length := by
  induction data with
  | nil => rfl
  | cons b l ih =>
    simp only [List.flatMap_cons, List.length_append, hexN_length, ih, List.length_cons]
    omega

theorem srecCount_lt (type data_len : Nat) : srecCount type data_len < 256 := by
  unfold srecCount
  split <;> omega

theorem srecChecksum_lt (type address data_len : Nat) (payload : List Nat) :
    srecChecksum type address data_len payload < 256 := by
  unfold srecChecksum
  omega

/-! ## The record encoder: claims C1 to C4 -/

/-- C1 (as the specification states it, refuted): `write_srec(1, 0, [0x00, 0xFF], 2)` does not
return the line `S105000000FFFE`. -/
theorem write_srec_known_vector_FE_refuted :
    write_srec 1 0 [0x00, 0xFF] 2 ≠ some "S105000000FFFE\n".toList := by
  decide

/-- C1 (amended): `write_srec(1, 0, [0x00, 0xFF], 2)` returns exactly the line
`S105000000FFFB` followed by a newline: byte count 05, address 0000, payload 00FF and
checksum FB, the complement of the low byte of 0x05 + 0x00 + 0x00 + 0x00 + 0xFF = 0x104. -/
theorem write_srec_known_vector :
    write_srec 1 0 [0x00, 0xFF] 2 = some "S105000000FFFB\n".toList := by
  decide

/-- C2: for every kind in {0, 1, 5, 9}, every address below 65536 and every payload of at
most 252 bytes, `write_srec` returns a line, and the value `c` of its last two hex digits
(the checksum) and the value of its digits 2 and 3 (the byte-count field) satisfy
(byte count + high address byte + low address byte + sum of the payload + c) mod 256 = 255. -/
theorem write_srec_checksum_identity (type address : Nat) (data : List Nat)
    (hk : type = 0 ∨ type = 1 ∨ type = 5 ∨ type = 9) (ha : address < 65536)
    (_hl : data.length ≤ 252) :
    ∃ line, write_srec type address data data.length = some line ∧
      (hexVal ((line.drop 2).take 2) + address / 256 + address % 256 + data.sum +
        hexVal ((line.drop (line.length - 3)).take 2)) % 256 = 255 := by
  refine ⟨_, write_srec_supported type address data data.length hk, ?_⟩
  rw [List.take_length, srecLine]
  have hc := srecCount_lt type data.length
  have hs := srecChecksum_lt type address data.length data
  have hfield : ((srecBody type address data.length data ++
      (fmtX '0' 2 (srecChecksum type address data.length data) ++ ['\n'])).drop 2).take 2 =
      hexN 2 (srecCount type data.length) := by
    rw [srecBody, fmtX_02 _ hc]
    rcases hk with rfl | rfl | rfl | rfl <;> simp [fmtX_blank_one, hexN]
  have hlast : ((srecBody type address data.length data ++
      (fmtX '0' 2 (srecChecksum type address data.length data) ++ ['\n'])).drop
        ((srecBody type address data.length data ++
          (fmtX '0' 2 (srecChecksum type address data.length data) ++ ['\n'])).length - 3)).take 2 =
      hexN 2 (srecChecksum type address data.length data) := by
    rw [fmtX_02 _ hs]
    have hlen : (srecBody type address data.length data ++
        (hexN 2 (srecChecksum type address data.length data) ++ ['\n'])).length - 3 =
        (srecBody type address data.length data).length := by
      simp [hexN_length]
    rw [hlen, List.drop_left]
    simp [hexN]
  rw [hfield, hlast, hexVal_hexN 2 _ (by norm_num; exact hc), hexVal_hexN 2 _ (by norm_num; exact hs)]
  clear hfield hlast hc hs
  unfold srecChecksum srecCount
  generalize data.sum = total
  have h16 : address / 65536 % 256 = 0 := by omega
  rcases hk with rfl | rfl | rfl | rfl <;> simp <;> omega

/-- C2 at a concrete record: kind 1, address 0x1234, payload [1, 2, 3]. -/
theorem write_srec_checksum_identity_witness :
    ∃ line, write_srec 1 4660 [1, 2, 3] [1, 2, 3].length = some line ∧
      (hexVal ((line.drop 2).take 2) + 4660 / 256 + 4660 % 256 + [1, 2, 3].sum +
        hexVal ((line.drop (line.length - 3)).take 2)) % 256 = 255 :=
  write_srec_checksum_identity 1 4660 [1, 2, 3] (by decide) (by decide) (by decide)

/-- C3: for every kind in {0, 1, 5, 9}, every address below 65536 and every payload of bytes
permitted for the kind (empty for kinds 5 and 9, at most 252 bytes for kinds 0 and 1),
`write_srec` returns exactly the line of the grammar: `S`, the kind digit, the byte count
`len + 3` as 2 hex digits, the address as 4 hex digits, each payload byte as 2 hex digits,
the checksum as 2 hex digits, and a newline; the line has `11 + 2 * len` characters. -/
theorem write_srec_line_grammar (type address : Nat) (data : List Nat)
    (hk : type = 0 ∨ type = 1 ∨ type = 5 ∨ type = 9) (ha : address < 65536)
    (hb : ∀ b ∈ data, b < 256) (hl : data.length ≤ 252)
    (hp : type = 5 ∨ type = 9 → data = []) :
    write_srec type address data data.length = some (srec_line_spec type address data) ∧
      (srec_line_spec type address data).length = 11 + 2 * data.length := by
  constructor
  · rw [write_srec_supported type address data data.length hk, List.take_length, srecLine]
    have hc := srecCount_lt type data.length
    have hs := srecChecksum_lt type address data.length data
    have ht : type < 16 := by omega
    rw [srecBody, fmtX_02 _ hc, fmtX_02 _ hs, fmtX_04 _ ha, fmtX_blank_one _ ht,
      flatMap_fmtX_bytes data hb]
    have hcount : srecCount type data.length = data.length + 3 := by
      unfold srecCount
      rcases hk with rfl | rfl | rfl | rfl
      · simp; omega
      · simp; omega
      · simp [hp (Or.inl rfl)]
      · simp [hp (Or.inr rfl)]
    have hsum : srecChecksum type address data.length data =
        srec_checksum_spec (data.length + 3) address data := by
      unfold srecChecksum srec_checksum_spec
      rw [hcount]
      generalize data.sum = total
      have h16 : address / 65536 % 256 = 0 := by omega
      split <;> omega
    rw [hcount, hsum]
    simp [srec_line_spec]
  · simp only [srec_line_spec, List.length_append, hexN_length, flatMap_hexN_length,
      List.length_cons, List.length_nil]
    omega

/-- C3 at a concrete record: the header record of the SREC document. -/
theorem write_srec_line_grammar_witness :
    write_srec 0 0 [68, 65, 86, 73, 68] [68, 65, 86, 73, 68].length =
        some (srec_line_spec 0 0 [68, 65, 86, 73, 68]) ∧
      (srec_line_spec 0 0 [68, 65, 86, 73, 68]).length = 11 + 2 * [68, 65, 86, 73, 68].length :=
  write_srec_line_grammar 0 0 [68, 65, 86, 73, 68] (by decide) (by decide) (by decide)
    (by decide) (by decide)

/-- C4: `write_srec` returns NULL exactly when the kind is not one of 0, 1, 5, 9, whatever the
address and the payload; in particular kinds 2 and 8 are rejected. -/
theorem write_srec_fails_iff (type address : Nat) (data : List Nat) (data_len : Nat) :
    (write_srec type address data data_len = none ↔
        ¬ (type = 0 ∨ type = 1 ∨ type = 5 ∨ type = 9)) ∧
      write_srec 2 address data data_len = none ∧
      write_srec 8 address data data_len = none := by
  refine ⟨?_, rfl, rfl⟩
  constructor
  · intro h hk
    rw [write_srec_supported type address data data_len hk] at h
    exact Option.noConfusion h
  · intro h
    unfold write_srec
    split <;> simp_all

/-! ## Lemmas on the loop of convert_to_srec -/

theorem loopRecords_zero (data : List Nat) (address index : Nat) :
    loopRecords data address index 0 = [] := by
  simp [loopRecords]

theorem loopRecords_step (data : List Nat) (address index remaining : Nat)
    (haddr : address < 4294967296) (hrem : 0 < remaining) :
    loopRecords data address index remaining =
      (address, (data.drop index).take 16) ::
        loopRecords data ((address + min remaining 16) % 4294967296) (index + min remaining 16)
          (remaining - min remaining 16) := by
  unfold loopRecords
  by_cases h : remaining ≤ 16
  · have h1 : (remaining + 15) / 16 = 1 := by omega
    have h2 : (remaining - min remaining 16 + 15) / 16 = 0 := by omega
    have h3 : List.range 1 = [0] := rfl
    rw [h1, h2, h3]
    simp [Nat.mod_eq_of_lt haddr]
  · have h1 : (remaining + 15) / 16 = (remaining - min remaining 16 + 15) / 16 + 1 := by omega
    have h2 : min remaining 16 = 16 := by omega
    rw [h1, List.range_succ_eq_map, h2]
    simp only [List.map_cons, List.map_map, Nat.mul_zero, Nat.add_zero,
      Nat.mod_eq_of_lt haddr]
    congr 1
    apply List.map_congr_left
    intro i _
    simp only [Function.comp, Nat.succ_eq_add_one]
    congr 1
    · omega
    · congr 2
      omega

theorem srec_loop_eq (data : List Nat) (fuel : Nat) :
    ∀ (index address remaining s1_count : Nat) (buf : List Char) (recs : List (Nat × List Nat)),
      index + remaining = data.length → (remaining + 15) / 16 ≤ fuel →
      address < 4294967296 → s1_count < 4294967296 →
      srec_loop data fuel
          { index := index, address := address, remaining := remaining, s1_count := s1_count
            result_buffer := buf, s1_records := recs } =
        some
          { index := data.length
            address := (address + remaining) % 4294967296
            remaining := 0
            s1_count := (s1_count + (remaining + 15) / 16) % 4294967296
            result_buffer := buf ++ (loopRecords data address index remaining).flatMap s1Line
            s1_records := recs ++ loopRecords data address index remaining } := by
  induction fuel with
  | zero =>
    intro index address remaining s1_count buf recs hidx hfuel haddr hcnt
    have h0 : remaining = 0 := by omega
    subst h0
    have e2 : (s1_count + (0 + 15) / 16) % 4294967296 = s1_count := by omega
    have e3 : index = data.length := by omega
    simp only [srec_loop, Nat.lt_irrefl, if_false, loopRecords_zero, List.flatMap_nil,
      List.append_nil, Nat.add_zero, gt_iff_lt]
    rw [Nat.mod_eq_of_lt haddr, e2, e3]
  | succ fuel ih =>
    intro index address remaining s1_count buf recs hidx hfuel haddr hcnt
    by_cases hrem : remaining = 0
    · subst hrem
      have e2 : (s1_count + (0 + 15) / 16) % 4294967296 = s1_count := by omega
      have e3 : index = data.length := by omega
      simp only [srec_loop, Nat.lt_irrefl, if_false, loopRecords_zero, List.flatMap_nil,
        List.append_nil, Nat.add_zero, gt_iff_lt]
      rw [Nat.mod_eq_of_lt haddr, e2, e3]
    · have hpos : 0 < remaining := Nat.pos_of_ne_zero hrem
      have hlen : (if remaining > 16 then 16 else remaining) % 256 = min remaining 16 := by
        split <;> omega
      have hpay : (data.drop index).take (min remaining 16) = (data.drop index).take 16 := by
        by_cases h : remaining ≤ 16
        · have hl : (data.drop index).length = remaining := by
            rw [List.length_drop]
            omega
          rw [List.take_of_length_le (by omega), List.take_of_length_le (by omega)]
        · have : min remaining 16 = 16 := by omega
          rw [this]
      have hplen : ((data.drop index).take 16).length = min remaining 16 := by
        rw [List.length_take, List.length_drop]
        omega
      simp only [srec_loop, hpos, gt_iff_lt, if_true, hlen]
      rw [write_srec_supported 1 address (data.drop index) (min remaining 16) (by simp)]
      simp only []
      rw [ih (index + min remaining 16) ((address + min remaining 16) % 4294967296)
        (remaining - min remaining 16) ((s1_count + 1) % 4294967296) _ _ (by omega) (by omega)
        (Nat.mod_lt _ (by norm_num)) (Nat.mod_lt _ (by norm_num))]
      rw [loopRecords_step data address index remaining haddr hpos, hpay]
      simp only [List.flatMap_cons, s1Line, hplen, List.append_assoc, List.singleton_append]
      congr 2 <;> omega

theorem FIRST_NAME_header :
    write_srec 0 0 FIRST_NAME_bytes (FIRST_NAME.length % 256) =
      some (srecLine 0 0 5 FIRST_NAME_bytes) := by
  rw [write_srec_supported 0 0 FIRST_NAME_bytes (FIRST_NAME.length % 256) (by simp)]
  rfl

/-- The state `convert_to_srec` reaches at its `return`, for every buffer. -/
theorem convert_to_srec_state_eq (data : List Nat) :
    convert_to_srec_state data =
      some
        { index := data.length
          address := data.length % 4294967296
          remaining := 0
          s1_count := ((data.length + 15) / 16) % 4294967296
          result_buffer :=
            srecLine 0 0 5 FIRST_NAME_bytes ++
              (loopRecords data 0 0 data.length).flatMap s1Line ++
              srecLine 5 (((data.length + 15) / 16) % 4294967296) 0 [] ++
              srecLine 9 0 0 []
          s1_records := loopRecords data 0 0 data.length } := by
  unfold convert_to_srec_state
  rw [FIRST_NAME_header]
  simp only []
  rw [srec_loop_eq data data.length 0 0 data.length 0 _ _ (by omega) (by omega)
    (by norm_num) (by norm_num)]
  simp only []
  rw [write_srec_supported 5 _ [] 0 (by simp), write_srec_supported 9 0 [] 0 (by simp)]
  simp

theorem convert_to_srec_eq (data : List Nat) :
    convert_to_srec data =
      some (srecLine 0 0 5 FIRST_NAME_bytes ++
        (loopRecords data 0 0 data.length).flatMap s1Line ++
        srecLine 5 (((data.length + 15) / 16) % 4294967296) 0 [] ++
        srecLine 9 0 0 []) := by
  simp [convert_to_srec, convert_to_srec_state_eq]

theorem convert_to_srec_records_eq (data : List Nat) :
    convert_to_srec_records data = some (loopRecords data 0 0 data.length) := by
  simp [convert_to_srec_records, convert_to_srec_state_eq]

theorem concatLines_map_some (ls : List (List Char)) :
    concatLines (ls.map some) = some ls.flatten := by
  induction ls with
  | nil => rfl
  | cons l ls ih => simp [concatLines, ih]

theorem chunk_eq (data : List Nat) (i : Nat) :
    chunk data i = (data.drop (16 * i)).take 16 := by
  unfold chunk
  by_cases h : 16 * i + 16 ≤ data.length
  · have : min (16 * i + 16) data.length - 16 * i = 16 := by omega
    rw [this]
  · have hl : (data.drop (16 * i)).length ≤ min (16 * i + 16) data.length - 16 * i := by
      rw [List.length_drop]
      omega
    rw [List.take_of_length_le hl, List.take_of_length_le]
    rw [List.length_drop]
    omega

theorem write_srec_full (type address : Nat) (payload : List Nat)
    (hk : type = 0 ∨ type = 1 ∨ type = 5 ∨ type = 9) :
    write_srec type address payload payload.length =
      some (srecLine type address payload.length payload) := by
  rw [write_srec_supported type address payload payload.length hk, List.take_length]

/-! ## Lemmas on the lines of a text -/

theorem textLines_line (l rest : List Char) (hl : '\n' ∉ l) :
    textLines (l ++ '\n' :: rest) = l :: textLines rest := by
  induction l with
  | nil => simp [textLines]
  | cons c l ih =>
    have hc : c ≠ '\n' := fun h => hl (by simp [h])
    have hl1 : '\n' ∉ l := fun h => hl (by simp [h])
    simp [textLines, hc, ih hl1]

theorem textLines_lines (ls : List (List Char)) (rest : List Char)
    (h : ∀ l ∈ ls, '\n' ∉ l) :
    textLines (ls.flatMap (fun l => l ++ ['\n']) ++ rest) = ls ++ textLines rest := by
  induction ls with
  | nil => simp
  | cons l ls ih =>
    have h1 : '\n' ∉ l := h l (by simp)
    have h2 : ∀ l1 ∈ ls, '\n' ∉ l1 := fun l1 hl1 => h l1 (by simp [hl1])
    simp only [List.flatMap_cons, List.append_assoc, List.singleton_append, List.cons_append,
      List.nil_append]
    rw [textLines_line l _ h1, ih h2]

theorem textLines_flatMap (ls : List (List Char)) (h : ∀ l ∈ ls, '\n' ∉ l) :
    textLines (ls.flatMap (fun l => l ++ ['\n'])) = ls := by
  have key := textLines_lines ls [] h
  rw [List.append_nil] at key
  rw [key]
  simp [textLines]

theorem hexDigitsAux_mem (fuel v : Nat) (acc : List Char) (c : Char)
    (h : c ∈ hexDigitsAux fuel v acc) : c ∈ acc ∨ ∃ d, c = hexDigit d := by
  induction fuel generalizing v acc with
  | zero => exact Or.inl h
  | succ fuel ih =>
    simp only [hexDigitsAux] at h
    split at h
    · rcases List.mem_cons.mp h with h | h
      · exact Or.inr ⟨_, h⟩
      · exact Or.inl h
    · rcases ih _ _ h with h | h
      · rcases List.mem_cons.mp h with h | h
        · exact Or.inr ⟨_, h⟩
        · exact Or.inl h
      · exact Or.inr h

theorem fmtX_no_newline (pad : Char) (w v : Nat) (hpad : pad ≠ '\n') : '\n' ∉ fmtX pad w v := by
  intro h
  simp only [fmtX, List.mem_append] at h
  rcases h with h | h
  · exact hpad (List.eq_of_mem_replicate h).symm
  · rcases hexDigitsAux_mem _ _ _ _ h with h | ⟨d, h⟩
    · simp at h
    · exact hexDigit_ne_newline d h.symm

theorem srecLineText_no_newline (type address data_len : Nat) (payload : List Nat) :
    '\n' ∉ srecLineText type address data_len payload := by
  intro h
  simp only [srecLineText, srecBody, List.mem_append, List.mem_flatMap, List.mem_singleton] at h
  rcases h with (((((h | h) | h) | h) | ⟨b, _, h⟩) | h)
  · exact absurd h (by decide)
  · exact fmtX_no_newline _ _ _ (by decide) h
  · exact fmtX_no_newline _ _ _ (by decide) h
  · exact fmtX_no_newline _ _ _ (by decide) h
  · exact fmtX_no_newline _ _ _ (by decide) h
  · exact fmtX_no_newline _ _ _ (by decide) h

theorem srecLine_eq (type address data_len : Nat) (payload : List Nat) :
    srecLine type address data_len payload =
      srecLineText type address data_len payload ++ ['\n'] := by
  simp [srecLine, srecLineText]

theorem srecLineText_tag (type address data_len : Nat) (payload : List Nat) (ht : type < 16) :
    (srecLineText type address data_len payload).take 2 = ['S', hexDigit type] := by
  have h2 : type % 16 = type := by omega
  simp [srecLineText, srecBody, fmtX_blank_one type ht, hexN, h2]

/-- The lines of the text `convert_to_srec` returns, for every buffer. -/
theorem convert_to_srec_lines (data : List Nat) :
    ∃ text, convert_to_srec data = some text ∧
      textLines text =
        [srecLineText 0 0 5 FIRST_NAME_bytes] ++
          (loopRecords data 0 0 data.length).map
            (fun r => srecLineText 1 r.1 r.2.length r.2) ++
          [srecLineText 5 (((data.length + 15) / 16) % 4294967296) 0 [],
            srecLineText 9 0 0 []] := by
  refine ⟨_, convert_to_srec_eq data, ?_⟩
  have key := textLines_flatMap
    ([srecLineText 0 0 5 FIRST_NAME_bytes] ++
      (loopRecords data 0 0 data.length).map (fun r => srecLineText 1 r.1 r.2.length r.2) ++
      [srecLineText 5 (((data.length + 15) / 16) % 4294967296) 0 [], srecLineText 9 0 0 []])
    (by
      intro l hl
      simp only [List.mem_append, List.mem_map, List.mem_cons, List.mem_singleton,
        List.not_mem_nil, or_false] at hl
      rcases hl with ((hl | ⟨r, _, hl⟩) | (hl | hl)) <;> subst hl <;>
        exact srecLineText_no_newline _ _ _ _)
  rw [← key]
  congr 1
  have hs1 : s1Line = fun r => srecLineText 1 r.1 r.2.length r.2 ++ ['\n'] := by
    funext r
    rw [s1Line, srecLine_eq]
  simp [List.flatMap_append, List.flatMap_map, srecLine_eq, hs1, List.flatMap_cons]

theorem filter_tag (c d : Char) (ls : List (List Char)) (h : ∀ l ∈ ls, l.take 2 = ['S', c]) :
    ls.filter (fun l => l.take 2 = ['S', d]) = if c = d then ls else [] := by
  induction ls with
  | nil => simp
  | cons l ls ih =>
    have h1 := h l (by simp)
    have h2 := ih (fun l1 hl1 => h l1 (by simp [hl1]))
    by_cases hcd : c = d
    · subst hcd
      simp only [if_true] at h2 ⊢
      simp [List.filter_cons, h1, h2]
    · simp only [hcd, if_false] at h2 ⊢
      simp [List.filter_cons, h1, h2, hcd]

/-- The lines with a given record tag in the text `convert_to_srec` returns. -/
theorem convert_to_srec_recordLines (data : List Nat) :
    ∃ text, convert_to_srec data = some text ∧
      recordLines '1' text =
        (loopRecords data 0 0 data.length).map (fun r => srecLineText 1 r.1 r.2.length r.2) ∧
      recordLines '5' text =
        [srecLineText 5 (((data.length + 15) / 16) % 4294967296) 0 []] := by
  obtain ⟨text, htext, hlines⟩ := convert_to_srec_lines data
  refine ⟨text, htext, ?_, ?_⟩
  · unfold recordLines
    rw [hlines, List.filter_append, List.filter_append,
      filter_tag '0' '1' [_] (by simp [srecLineText_tag, hexDigit]),
      filter_tag '1' '1' (List.map _ _) (by
        intro l hl
        obtain ⟨r, _, rfl⟩ := List.mem_map.mp hl
        exact srecLineText_tag 1 _ _ _ (by norm_num))]
    simp [List.filter_cons, srecLineText_tag, hexDigit]
  · unfold recordLines
    rw [hlines, List.filter_append, List.filter_append,
      filter_tag '0' '5' [_] (by simp [srecLineText_tag, hexDigit]),
      filter_tag '1' '5' (List.map _ _) (by
        intro l hl
        obtain ⟨r, _, rfl⟩ := List.mem_map.mp hl
        exact srecLineText_tag 1 _ _ _ (by norm_num))]
    simp [List.filter_cons, srecLineText_tag, hexDigit]

theorem loopRecords_length (data : List Nat) (address index remaining : Nat) :
    (loopRecords data address index remaining).length = (remaining + 15) / 16 := by
  simp [loopRecords]

theorem hexDigits_length_ge (v : Nat) (h : 65536 ≤ v) : 5 ≤ (hexDigits v).length := by
  rw [hexDigits_ge v (by omega), hexDigits_ge (v / 16) (by omega),
    hexDigits_ge (v / 16 / 16) (by omega), hexDigits_ge (v / 16 / 16 / 16) (by omega)]
  have := hexDigits_length_pos (v / 16 / 16 / 16 / 16)
  simp only [List.length_append, List.length_cons, List.length_nil]
  omega

theorem s5_line_text (k : Nat) :
    srecLineText 5 k 0 [] =
      "S503".toList ++ fmtX '0' 4 k ++ hexN 2 (srecChecksum 5 k 0 []) := by
  rw [srecLineText, srecBody, fmtX_02 _ (srecChecksum_lt 5 k 0 []),
    fmtX_02 _ (srecCount_lt 5 0), fmtX_blank_one 5 (by norm_num)]
  simp [srecCount, hexN, hexDigit]

/-! ## The SREC document: claims C5 to C9 -/

/-- C5: for every buffer of length n ≤ 65536, `convert_to_srec` returns a text, and it is the
concatenation of `write_srec(0, 0, "DAVID", 5)`, then for i = 0 .. ceil(n/16) - 1 the line
`write_srec(1, 16*i, chunk i)` where chunk i is bytes 16*i up to min(16*i+16, n), then
`write_srec(5, ceil(n/16), empty)`, then `write_srec(9, 0, empty)`. -/
theorem convert_to_srec_document (data : List Nat) (hn : data.length ≤ 65536) :
    convert_to_srec data = srec_document_spec data ∧ (convert_to_srec data).isSome = true := by
  have hdoc : srec_document_spec data =
      some (srecLine 0 0 5 FIRST_NAME_bytes ++
        (loopRecords data 0 0 data.length).flatMap s1Line ++
        srecLine 5 (((data.length + 15) / 16) % 4294967296) 0 [] ++
        srecLine 9 0 0 []) := by
    have hlist : ([write_srec 0 0 FIRST_NAME_bytes 5] ++
        (List.range ((data.length + 15) / 16)).map
          (fun i => write_srec 1 (16 * i) (chunk data i) (chunk data i).length) ++
        [write_srec 5 ((data.length + 15) / 16) [] 0, write_srec 9 0 [] 0]) =
        ([srecLine 0 0 5 FIRST_NAME_bytes] ++
          (List.range ((data.length + 15) / 16)).map
            (fun i => srecLine 1 (16 * i) (chunk data i).length (chunk data i)) ++
          [srecLine 5 ((data.length + 15) / 16) 0 [], srecLine 9 0 0 []]).map some := by
      have h0 : write_srec 0 0 FIRST_NAME_bytes 5 = some (srecLine 0 0 5 FIRST_NAME_bytes) :=
        FIRST_NAME_header
      rw [h0, write_srec_supported 5 _ [] 0 (by simp), write_srec_supported 9 0 [] 0 (by simp)]
      simp [write_srec_full]
    have hk : ((data.length + 15) / 16) % 4294967296 = (data.length + 15) / 16 := by omega
    unfold srec_document_spec
    rw [hlist, concatLines_map_some, hk]
    congr 1
    simp only [List.flatten_append, List.flatten_cons, List.flatten_nil, List.append_nil,
      List.append_assoc]
    congr 1
    rw [loopRecords, List.flatMap_map, List.flatMap_def]
    congr 2
    apply List.map_congr_left
    intro i hi
    have hi1 : i < (data.length + 15) / 16 := List.mem_range.mp hi
    have ha : (0 + 16 * i) % 4294967296 = 16 * i := by omega
    have hc : chunk data i = (data.drop (0 + 16 * i)).take 16 := by
      rw [chunk_eq, Nat.zero_add]
    simp only [s1Line, ha, ← hc]
  rw [hdoc, convert_to_srec_eq]
  exact ⟨rfl, rfl⟩

/-- C5 on a 32-byte buffer (two Data16 records, at addresses 0 and 16). -/
theorem convert_to_srec_document_witness :
    convert_to_srec (List.replicate 32 7) = srec_document_spec (List.replicate 32 7) ∧
      (convert_to_srec (List.replicate 32 7)).isSome = true :=
  convert_to_srec_document (List.replicate 32 7) (by decide)

/-- C6: for every buffer of length n with ceil(n/16) ≤ 65535, `convert_to_srec` returns a text
with exactly ceil(n/16) lines tagged `S1` and exactly one line tagged `S5`, which is `S503`,
then ceil(n/16) as 4 hex digits, then the checksum. -/
theorem convert_to_srec_record_count (data : List Nat)
    (hk : (data.length + 15) / 16 ≤ 65535) :
    ∃ text, convert_to_srec data = some text ∧
      (recordLines '1' text).length = (data.length + 15) / 16 ∧
      recordLines '5' text =
        ["S503".toList ++ hexN 4 ((data.length + 15) / 16) ++
          hexN 2 (srec_checksum_spec 3 ((data.length + 15) / 16) [])] := by
  obtain ⟨text, htext, h1, h5⟩ := convert_to_srec_recordLines data
  refine ⟨text, htext, ?_, ?_⟩
  · rw [h1, List.length_map, loopRecords_length]
  · have hmod : ((data.length + 15) / 16) % 4294967296 = (data.length + 15) / 16 := by omega
    rw [h5, hmod, s5_line_text, fmtX_04 _ (by omega)]
    have hsum : srecChecksum 5 ((data.length + 15) / 16) 0 [] =
        srec_checksum_spec 3 ((data.length + 15) / 16) [] := by
      simp only [srecChecksum, srec_checksum_spec, srecCount, List.sum_nil]
      simp
      omega
    rw [hsum]

/-- C6 on a 32-byte buffer: two `S1` lines and the Count16 address field `0002`. -/
theorem convert_to_srec_record_count_witness :
    ∃ text, convert_to_srec (List.replicate 32 7) = some text ∧
      (recordLines '1' text).length = ((List.replicate 32 7).length + 15) / 16 ∧
      recordLines '5' text =
        ["S503".toList ++ hexN 4 (((List.replicate 32 7).length + 15) / 16) ++
          hexN 2 (srec_checksum_spec 3 (((List.replicate 32 7).length + 15) / 16) [])] :=
  convert_to_srec_record_count (List.replicate 32 7) (by decide)

/-- C7: for every non-empty buffer of length n, the Data16 records `convert_to_srec` emits
(the text it returns is the header, their lines in order, the Count16 and the terminator
lines) all carry exactly 16 payload bytes except the last, the last carries n mod 16 bytes
when n is not a multiple of 16 and 16 bytes when it is, and none has an empty payload. -/
theorem convert_to_srec_chunk_sizes (data : List Nat) (hne : data ≠ []) :
    ∃ recs, convert_to_srec_records data = some recs ∧
      convert_to_srec data =
        concatLines
          ([write_srec 0 0 FIRST_NAME_bytes 5] ++
            recs.map (fun r => write_srec 1 r.1 r.2 r.2.length) ++
            [write_srec 5 (recs.length % 4294967296) [] 0, write_srec 9 0 [] 0]) ∧
      (∀ r ∈ recs.dropLast, r.2.length = 16) ∧
      recs.getLast?.map (fun r => r.2.length) =
        some (if data.length % 16 = 0 then 16 else data.length % 16) ∧
      (∀ r ∈ recs, r.2 ≠ []) := by
  have hpos : 0 < data.length := List.length_pos.mpr hne
  refine ⟨_, convert_to_srec_records_eq data, ?_, ?_, ?_, ?_⟩
  · have hlist : ([write_srec 0 0 FIRST_NAME_bytes 5] ++
        (loopRecords data 0 0 data.length).map (fun r => write_srec 1 r.1 r.2 r.2.length) ++
        [write_srec 5 ((loopRecords data 0 0 data.length).length % 4294967296) [] 0,
          write_srec 9 0 [] 0]) =
        ([srecLine 0 0 5 FIRST_NAME_bytes] ++
          (loopRecords data 0 0 data.length).map s1Line ++
          [srecLine 5 (((data.length + 15) / 16) % 4294967296) 0 [], srecLine 9 0 0 []]).map
            some := by
      have h0 : write_srec 0 0 FIRST_NAME_bytes 5 = some (srecLine 0 0 5 FIRST_NAME_bytes) :=
        FIRST_NAME_header
      rw [h0, write_srec_supported 5 _ [] 0 (by simp), write_srec_supported 9 0 [] 0 (by simp),
        loopRecords_length]
      simp [write_srec_full, s1Line]
    rw [hlist, concatLines_map_some, convert_to_srec_eq]
    simp [List.flatMap_def]
  · intro r hr
    rw [loopRecords, ← List.map_dropLast, List.dropLast_eq_take, List.take_range,
      List.length_range] at hr
    obtain ⟨i, hi, rfl⟩ := List.mem_map.mp hr
    have hi1 := List.mem_range.mp hi
    simp only [List.length_take, List.length_drop]
    omega
  · rw [loopRecords, List.getLast?_map, List.getLast?_range]
    have hk : (data.length + 15) / 16 ≠ 0 := by omega
    simp only [hk, if_false, Option.map_some', List.length_take, List.length_drop]
    congr 1
    split <;> omega
  · intro r hr
    rw [loopRecords] at hr
    obtain ⟨i, hi, rfl⟩ := List.mem_map.mp hr
    have hi1 := List.mem_range.mp hi
    intro hnil
    have hlen := congrArg List.length hnil
    simp only [List.length_take, List.length_drop, List.length_nil] at hlen
    omega

/-- C7 on a 17-byte buffer (payload lengths 16 and 1). -/
theorem convert_to_srec_chunk_sizes_witness :
    ∃ recs, convert_to_srec_records (List.replicate 17 7) = some recs ∧
      convert_to_srec (List.replicate 17 7) =
        concatLines
          ([write_srec 0 0 FIRST_NAME_bytes 5] ++
            recs.map (fun r => write_srec 1 r.1 r.2 r.2.length) ++
            [write_srec 5 (recs.length % 4294967296) [] 0, write_srec 9 0 [] 0]) ∧
      (∀ r ∈ recs.dropLast, r.2.length = 16) ∧
      recs.getLast?.map (fun r => r.2.length) =
        some (if (List.replicate 17 7).length % 16 = 0 then 16
          else (List.replicate 17 7).length % 16) ∧
      (∀ r ∈ recs, r.2 ≠ []) :=
  convert_to_srec_chunk_sizes (List.replicate 17 7) (by decide)

/-- C8: on the empty buffer `convert_to_srec` returns exactly the three lines
`S008000044415649448F`, `S5030000FC`, `S9030000FC`: the header record (kind 0, address 0,
payload "DAVID"), the Count16 record with address 0 and the terminator, and no `S1` line. -/
theorem convert_to_srec_empty :
    convert_to_srec [] = some "S008000044415649448F\nS5030000FC\nS9030000FC\n".toList ∧
      textLines "S008000044415649448F\nS5030000FC\nS9030000FC\n".toList =
        ["S008000044415649448F".toList, "S5030000FC".toList, "S9030000FC".toList] ∧
      recordLines '1' "S008000044415649448F\nS5030000FC\nS9030000FC\n".toList = [] ∧
      write_srec 0 0 ("DAVID".toList.map Char.toNat) 5 = some "S008000044415649448F\n".toList ∧
      write_srec 5 0 [] 0 = some "S5030000FC\n".toList ∧
      write_srec 9 0 [] 0 = some "S9030000FC\n".toList := by
  refine ⟨?_, ?_, ?_, ?_, ?_, ?_⟩ <;> decide

/-- C9 (as the specification states it, refuted): on a buffer of 1048576 bytes, which needs
65536 Data16 records, `convert_to_srec` reports no failure; it returns a text that ends with
the Count16 line `S50310000FC`, whose count field has 5 digits, and the terminator. -/
theorem convert_to_srec_overflow_not_reported :
    1048560 < (List.replicate 1048576 0).length ∧
      ∃ pre, convert_to_srec (List.replicate 1048576 0) =
        some (pre ++ "S50310000FC\nS9030000FC\n".toList) := by
  constructor
  · rw [List.length_replicate]
    norm_num
  · refine ⟨srecLine 0 0 5 FIRST_NAME_bytes ++
      (loopRecords (List.replicate 1048576 0) 0 0 1048576).flatMap s1Line, ?_⟩
    rw [convert_to_srec_eq, List.length_replicate, List.append_assoc]
    have h5 : srecLine 5 ((1048576 + 15) / 16 % 4294967296) 0 [] ++ srecLine 9 0 0 [] =
        "S50310000FC\nS9030000FC\n".toList := by decide
    rw [h5]

/-- C9 (amended): for every buffer that needs more than 65535 and fewer than 2^32 Data16
records, `convert_to_srec` reports no failure: it returns a text whose single `S5` line is
`S503`, then the record count in all the hex digits it needs, which are at least 5, then the
checksum. -/
theorem convert_to_srec_overflow_widens (data : List Nat) (hn : 1048560 < data.length)
    (hk : (data.length + 15) / 16 < 4294967296) :
    ∃ text, convert_to_srec data = some text ∧
      recordLines '5' text =
        ["S503".toList ++ hexDigits ((data.length + 15) / 16) ++
          hexN 2 (srecChecksum 5 ((data.length + 15) / 16) 0 [])] ∧
      5 ≤ (hexDigits ((data.length + 15) / 16)).length := by
  obtain ⟨text, htext, _, h5⟩ := convert_to_srec_recordLines data
  have hlen := hexDigits_length_ge ((data.length + 15) / 16) (by omega)
  refine ⟨text, htext, ?_, hlen⟩
  have hpad : fmtX '0' 4 ((data.length + 15) / 16) = hexDigits ((data.length + 15) / 16) := by
    have h0 : 4 - (hexDigits ((data.length + 15) / 16)).length = 0 := by omega
    simp [fmtX, h0]
  rw [h5, Nat.mod_eq_of_lt hk, s5_line_text, hpad]

/-- C9 (amended) on a buffer of 1048576 bytes. -/
theorem convert_to_srec_overflow_widens_witness :
    ∃ text, convert_to_srec (List.replicate 1048576 0) = some text ∧
      recordLines '5' text =
        ["S503".toList ++ hexDigits (((List.replicate 1048576 0).length + 15) / 16) ++
          hexN 2 (srecChecksum 5 (((List.replicate 1048576 0).length + 15) / 16) 0 [])] ∧
      5 ≤ (hexDigits (((List.replicate 1048576 0).length + 15) / 16)).length :=
  convert_to_srec_overflow_widens (List.replicate 1048576 0)
    (by rw [List.length_replicate]; norm_num) (by rw [List.length_replicate]; norm_num)

/-! ## Lemmas on convert_to_assembly -/

theorem getD_lt_256 (data : List Nat) (hb : ∀ b ∈ data, b < 256) (k : Nat) :
    data.getD k 0 < 256 := by
  by_cases h : k < data.length
  · rw [List.getD_eq_getElem data 0 h]
    exact hb _ (List.getElem_mem h)
  · rw [List.getD_eq_default data 0 (by omega)]
    norm_num

theorem asmToken_length_le (data : List Nat) (hb : ∀ b ∈ data, b < 256) (i len j : Nat) :
    (asmToken data i len j).length ≤ 5 := by
  unfold asmToken
  rw [fmtX_02 _ (getD_lt_256 data hb (i + j))]
  split <;> simp [hexN_length]

theorem flatMap_range_length_le (f : Nat → List Char) (h : ∀ j, (f j).length ≤ 5) (k : Nat) :
    ((List.range k).flatMap f).length ≤ 5 * k := by
  induction k with
  | zero => simp
  | succ k ih =>
    rw [List.range_succ, List.flatMap_append, List.length_append]
    have := h k
    simp only [List.flatMap_cons, List.flatMap_nil, List.append_nil]
    omega

theorem assembly_line_fold (data : List Nat) (hb : ∀ b ∈ data, b < 256) (i len k : Nat)
    (hk : k ≤ 16) :
    (List.range k).foldl
        (fun line_buffer j =>
          line_buffer ++
            snprintf (LINE_BUFFER_SIZE - line_buffer.length)
              (['$'] ++ fmtX '0' 2 (data.getD (i + j) 0) ++
                (if j = len - 1 then ['\n'] else [',', ' '])))
        "dc.b\t".toList =
      "dc.b\t".toList ++ (List.range k).flatMap (asmToken data i len) := by
  induction k with
  | zero => simp
  | succ k ih =>
    rw [List.range_succ, List.foldl_append, ih (by omega)]
    simp only [List.foldl_cons, List.foldl_nil, List.flatMap_append, List.flatMap_cons,
      List.flatMap_nil, List.append_nil]
    have h1 := flatMap_range_length_le (asmToken data i len) (asmToken_length_le data hb i len) k
    have h2 := asmToken_length_le data hb i len k
    have h3 : ("dc.b\t".toList).length = 5 := by decide
    have htok : (['$'] ++ fmtX '0' 2 (data.getD (i + k) 0) ++
        (if k = len - 1 then ['\n'] else [',', ' '])) = asmToken data i len k := rfl
    rw [htok, snprintf, List.take_of_length_le]
    · simp
    · simp only [LINE_BUFFER_SIZE, List.length_append, h3]
      omega

theorem assembly_line_eq (data : List Nat) (hb : ∀ b ∈ data, b < 256) (i len : Nat)
    (hlen : len ≤ 16) :
    assembly_line data i len =
      "dc.b\t".toList ++ (List.range len).flatMap (asmToken data i len) :=
  assembly_line_fold data hb i len len hlen

theorem intercalate_cons_of_ne_nil (sep x : List Char) (ys : List (List Char)) (h : ys ≠ []) :
    sep.intercalate (x :: ys) = x ++ sep ++ sep.intercalate ys := by
  cases ys with
  | nil => exact absurd rfl h
  | cons y ys => simp [List.intercalate]

theorem asmTokens_eq (data : List Nat) (len : Nat) :
    ∀ i, 1 ≤ len → i + len ≤ data.length →
      (List.range len).flatMap (asmToken data i len) =
        ", ".toList.intercalate
          (((data.drop i).take len).map (fun b => '$' :: fmtX '0' 2 b)) ++ ['\n'] := by
  induction len with
  | zero => intro i h; omega
  | succ len ih =>
    intro i _ hi
    have hi0 : i < data.length := by omega
    rw [List.drop_eq_getElem_cons hi0, List.take_succ_cons, List.map_cons]
    by_cases hl : len = 0
    · subst hl
      have h3 : List.range 1 = [0] := rfl
      rw [h3]
      simp [asmToken, List.intercalate, List.getElem?_eq_getElem hi0]
    · have hl1 : 1 ≤ len := by omega
      have hne : ((data.drop (i + 1)).take len).map (fun b => '$' :: fmtX '0' 2 b) ≠ [] := by
        intro h
        have := congrArg List.length h
        simp only [List.length_map, List.length_take, List.length_drop, List.length_nil] at this
        omega
      rw [intercalate_cons_of_ne_nil _ _ _ hne, List.append_assoc, ← ih (i + 1) hl1 (by omega),
        List.range_succ_eq_map, List.flatMap_cons, List.flatMap_map]
      have h0 : asmToken data i (len + 1) 0 = ('$' :: fmtX '0' 2 data[i]) ++ ", ".toList := by
        have : ¬ (0 = len) := by omega
        simp [asmToken, this, List.getElem?_eq_getElem hi0]
      have hstep : ∀ j, asmToken data i (len + 1) (Nat.succ j) = asmToken data (i + 1) len j := by
        intro j
        have e1 : i + Nat.succ j = i + 1 + j := by omega
        have e2 : (Nat.succ j = len + 1 - 1) = (j = len - 1) := by
          apply propext
          constructor <;> intro h <;> omega
        simp only [asmToken, e1, e2]
      rw [h0]
      simp only [hstep, List.append_assoc]

theorem map_fmtX_bytes (group : List Nat) (hb : ∀ b ∈ group, b < 256) :
    group.map (fun b => '$' :: fmtX '0' 2 b) = group.map (fun b => '$' :: hexN 2 b) := by
  apply List.map_congr_left
  intro b hbm
  rw [fmtX_02 b (hb b hbm)]

/-- The line `convert_to_assembly` builds for the chunk `t` of a buffer of bytes. -/
theorem assembly_line_chunk (data : List Nat) (hb : ∀ b ∈ data, b < 256) (t : Nat)
    (ht : 16 * t < data.length) :
    assembly_line data (16 * t)
        (if 16 * t + 16 > data.length then data.length - 16 * t else 16) =
      assembly_line_spec (chunk data t) := by
  have hlen : (if 16 * t + 16 > data.length then data.length - 16 * t else 16) =
      min (16 * t + 16) data.length - 16 * t := by
    split <;> omega
  rw [hlen, assembly_line_eq data hb _ _ (by omega),
    asmTokens_eq data _ (16 * t) (by omega) (by omega), assembly_line_spec, chunk,
    map_fmtX_bytes _ (fun b hbm => hb b (List.mem_of_mem_drop (List.mem_of_mem_take hbm)))]
  simp

theorem assembly_loop_eq (data : List Nat) (hb : ∀ b ∈ data, b < 256) (fuel : Nat) :
    ∀ (m : Nat) (buf : List Char), (data.length + 15) / 16 - m ≤ fuel →
      assembly_loop data fuel (16 * m) buf =
        some (buf ++ (List.range ((data.length + 15) / 16 - m)).flatMap
          (fun t => assembly_line_spec (chunk data (m + t)))) := by
  induction fuel with
  | zero =>
    intro m buf hm
    have h0 : (data.length + 15) / 16 - m = 0 := by omega
    have hi : ¬ (16 * m < data.length) := by omega
    simp [assembly_loop, hi, h0]
  | succ fuel ih =>
    intro m buf hm
    by_cases hi : 16 * m < data.length
    · have hk : (data.length + 15) / 16 - m = ((data.length + 15) / 16 - (m + 1)) + 1 := by
        omega
      simp only [assembly_loop, hi, if_true]
      rw [assembly_line_chunk data hb m hi, show 16 * m + 16 = 16 * (m + 1) by omega,
        ih (m + 1) _ (by omega), hk, List.range_succ_eq_map, List.flatMap_cons,
        List.flatMap_map]
      have hf : ∀ t, assembly_line_spec (chunk data (m + 1 + t)) =
          assembly_line_spec (chunk data (m + Nat.succ t)) := by
        intro t
        have e : m + 1 + t = m + Nat.succ t := by omega
        rw [e]
      simp only [List.append_assoc, Nat.add_zero, hf, Function.comp]
    · have h0 : (data.length + 15) / 16 - m = 0 := by omega
      simp [assembly_loop, hi, h0]

/-! ## The assembly listing: claim C10 -/

/-- C10: for every buffer of bytes, `convert_to_assembly` (with its allocation successful)
returns the concatenation, over the consecutive groups of up to 16 bytes of the buffer, of
the line `dc.b`, a tab, the bytes of the group each rendered as `$` and 2 uppercase hex
digits and joined by a comma and a blank, and a newline; nothing else. -/
theorem convert_to_assembly_listing (data : List Nat) (hb : ∀ b ∈ data, b < 256) :
    convert_to_assembly true data = some (assembly_listing_spec data) := by
  have h := assembly_loop_eq data hb data.length 0 [] (by omega)
  simp only [Nat.mul_zero, Nat.sub_zero, List.nil_append, Nat.zero_add] at h
  simp only [convert_to_assembly, if_true, h, assembly_listing_spec]

/-- C10 on a 17-byte buffer (a full line of 16 bytes and a line of one byte). -/
theorem convert_to_assembly_listing_witness :
    convert_to_assembly true (List.replicate 17 255) =
      some (assembly_listing_spec (List.replicate 17 255)) :=
  convert_to_assembly_listing (List.replicate 17 255) (by decide)

/-! ## The empty listing: claim C11 -/

/-- C11: on the empty buffer `convert_to_assembly` (with its allocation successful) does not
fail and returns the empty text, which has no line at all. -/
theorem convert_to_assembly_empty :
    convert_to_assembly true [] = some [] ∧ textLines ([] : List Char) = [] := by
  constructor <;> rfl

/-! ## Lemmas on the fields of a record line -/

theorem srecLine_count_field (type address data_len : Nat) (payload : List Nat)
    (hk : type = 0 ∨ type = 1 ∨ type = 5 ∨ type = 9) :
    ((srecLine type address data_len payload).drop 2).take 2 =
      hexN 2 (srecCount type data_len) := by
  rw [srecLine, srecBody, fmtX_02 _ (srecCount_lt type data_len)]
  rcases hk with rfl | rfl | rfl | rfl <;> simp [fmtX_blank_one, hexN]

theorem srecLine_length (type address : Nat) (data : List Nat)
    (hk : type = 0 ∨ type = 1 ∨ type = 5 ∨ type = 9) (ha : address < 65536)
    (hb : ∀ b ∈ data, b < 256) :
    (srecLine type address data.length data).length = 11 + 2 * data.length := by
  have ht : type < 16 := by omega
  rw [srecLine, srecBody, fmtX_02 _ (srecCount_lt type data.length),
    fmtX_02 _ (srecChecksum_lt type address data.length data), fmtX_04 _ ha,
    fmtX_blank_one _ ht, flatMap_fmtX_bytes data hb]
  simp only [List.length_append, hexN_length, flatMap_hexN_length, List.length_cons,
    List.length_nil]
  omega

/-- The characters `write_srec` formats, with the terminating NUL, exceed the buffer it
allocates by two, for every supported record of bytes with a 16-bit address. -/
theorem write_srec_formatted_size (type address : Nat) (data : List Nat)
    (hk : type = 0 ∨ type = 1 ∨ type = 5 ∨ type = 9) (ha : address < 65536)
    (hb : ∀ b ∈ data, b < 256) :
    ∃ line, write_srec type address data data.length = some line ∧
      line.length + 1 = write_srec_buffer_size data.length + 2 := by
  refine ⟨_, write_srec_full type address data hk, ?_⟩
  rw [srecLine_length type address data hk ha hb, write_srec_buffer_size]
  omega

/-! ## The byte-count field and the record buffer: claims C14 and C16 -/

/-- C14 (as the specification states it, refuted): `write_srec(5, 0, [0x01], 1)` returns the
line `S503000001FB`, whose byte-count field is 3 although 2 + 1 + 1 = 4 bytes follow it. -/
theorem write_srec_byte_count_kind5_refuted :
    write_srec 5 0 [1] [1].length = some "S503000001FB\n".toList ∧
      hexVal (("S503000001FB\n".toList.drop 2).take 2) = 3 ∧
      hexVal (("S503000001FB\n".toList.drop 2).take 2) ≠ 2 + [1].length + 1 := by
  refine ⟨?_, ?_, ?_⟩ <;> decide

/-- C14 (amended): for every kind in {0, 1, 5, 9}, every address below 65536 and every payload
of at most 252 bytes, `write_srec` returns a line whose byte-count field (hex digits 2 and 3)
is 3 for kinds 5 and 9, and, for kinds 0 and 1 and for an empty payload, equals
2 + len(payload) + 1, the number of hex byte pairs between the field and the newline. -/
theorem write_srec_byte_count (type address : Nat) (data : List Nat)
    (hk : type = 0 ∨ type = 1 ∨ type = 5 ∨ type = 9) (ha : address < 65536)
    (hb : ∀ b ∈ data, b < 256) (hl : data.length ≤ 252) :
    ∃ line, write_srec type address data data.length = some line ∧
      (type = 5 ∨ type = 9 → hexVal ((line.drop 2).take 2) = 3) ∧
      (type = 0 ∨ type = 1 ∨ data = [] →
        hexVal ((line.drop 2).take 2) = 2 + data.length + 1 ∧
        2 * hexVal ((line.drop 2).take 2) + 5 = line.length) := by
  refine ⟨_, write_srec_full type address data hk, ?_, ?_⟩
  · intro h59
    rw [srecLine_count_field _ _ _ _ hk,
      hexVal_hexN 2 _ (by norm_num; exact srecCount_lt type data.length)]
    unfold srecCount
    rcases h59 with rfl | rfl <;> simp
  · intro h01
    rw [srecLine_count_field _ _ _ _ hk,
      hexVal_hexN 2 _ (by norm_num; exact srecCount_lt type data.length),
      srecLine_length type address data hk ha hb]
    have hcount : srecCount type data.length = data.length + 3 := by
      unfold srecCount
      rcases h01 with rfl | rfl | rfl
      · simp; omega
      · simp; omega
      · split <;> simp
    rw [hcount]
    omega

/-- C14 (amended) at a concrete record: kind 1, address 0x0010, payload [1, 2, 3]. -/
theorem write_srec_byte_count_witness :
    ∃ line, write_srec 1 16 [1, 2, 3] [1, 2, 3].length = some line ∧
      ((1 : Nat) = 5 ∨ (1 : Nat) = 9 → hexVal ((line.drop 2).take 2) = 3) ∧
      ((1 : Nat) = 0 ∨ (1 : Nat) = 1 ∨ [1, 2, 3] = ([] : List Nat) →
        hexVal ((line.drop 2).take 2) = 2 + [1, 2, 3].length + 1 ∧
        2 * hexVal ((line.drop 2).take 2) + 5 = line.length) :=
  write_srec_byte_count 1 16 [1, 2, 3] (by decide) (by decide) (by decide) (by decide)

/-- C16 (the code at a failing input): for the header record that every run of
`convert_to_srec` writes, `write_srec(0, 0, "DAVID", 5)` formats 21 characters and the
terminating NUL, 22 in all, into the buffer of `10 + 2 * 5 = 20` bytes it allocates. -/
theorem write_srec_buffer_overrun :
    write_srec 0 0 FIRST_NAME_bytes 5 = some "S008000044415649448F\n".toList ∧
      "S008000044415649448F\n".toList.length + 1 = 22 ∧
      write_srec_buffer_size 5 = 20 := by
  refine ⟨?_, ?_, ?_⟩ <;> decide

/-! ## Lemmas on the chunks of a buffer -/

theorem flatMap_chunks (k : Nat) :
    ∀ data : List Nat, data.length ≤ 16 * k →
      (List.range k).flatMap (fun i => (data.drop (16 * i)).take 16) = data := by
  induction k with
  | zero =>
    intro data h
    have h0 : data.length = 0 := by omega
    rw [List.length_eq_zero.mp h0]
    rfl
  | succ k ih =>
    intro data h
    rw [List.range_succ_eq_map, List.flatMap_cons, List.flatMap_map]
    have hstep : ∀ i, (data.drop (16 * Nat.succ i)).take 16 =
        ((data.drop 16).drop (16 * i)).take 16 := by
      intro i
      rw [List.drop_drop]
      congr 2
      omega
    simp only [hstep]
    rw [ih (data.drop 16) (by rw [List.length_drop]; omega)]
    simp

theorem length_flatMap_affine {α : Type} (a b : Nat) (f : α → List Char) (g : α → List Nat)
    (l : List α) (h : ∀ x ∈ l, (f x).length = a + b * (g x).length) :
    (l.flatMap f).length = a * l.length + b * (l.flatMap g).length := by
  induction l with
  | nil => simp
  | cons x l ih =>
    have ih1 := ih (fun y hy => h y (by simp [hy]))
    have hx := h x (by simp)
    simp only [List.flatMap_cons, List.length_append, List.length_cons, ih1, hx, Nat.mul_add,
      Nat.mul_succ]
    omega

theorem loopRecords_mem (data : List Nat) (hn : data.length ≤ 65536) (r : Nat × List Nat)
    (hr : r ∈ loopRecords data 0 0 data.length) :
    r.1 < 65536 ∧ (∀ b ∈ r.2, b ∈ data) ∧ 1 ≤ r.2.length ∧ r.2.length ≤ 16 := by
  rw [loopRecords] at hr
  obtain ⟨i, hi, rfl⟩ := List.mem_map.mp hr
  have hi1 := List.mem_range.mp hi
  refine ⟨?_, ?_, ?_, ?_⟩
  · show (0 + 16 * i) % 4294967296 < 65536
    omega
  · intro b hbm
    exact List.mem_of_mem_drop (List.mem_of_mem_take hbm)
  · simp only [List.length_take, List.length_drop]
    omega
  · simp only [List.length_take, List.length_drop]
    omega

theorem loopRecords_payloads (data : List Nat) :
    (loopRecords data 0 0 data.length).flatMap (fun r => r.2) = data := by
  rw [loopRecords, List.flatMap_map]
  have h := flatMap_chunks ((data.length + 15) / 16) data (by omega)
  simpa [Function.comp] using h

theorem hexBytes_hexN_append (b : Nat) (rest : List Char) (hb : b < 256) :
    hexBytes (hexN 2 b ++ rest) = b :: hexBytes rest := by
  have h1 : b / 16 % 16 < 16 := Nat.mod_lt _ (by norm_num)
  have h2 : b % 16 < 16 := Nat.mod_lt _ (by norm_num)
  have e : hexN 2 b ++ rest = hexDigit (b / 16 % 16) :: hexDigit (b % 16) :: rest := by
    simp [hexN]
  rw [e, hexBytes, hexDigitVal_hexDigit _ h1, hexDigitVal_hexDigit _ h2]
  congr 1
  omega

theorem hexBytes_flatMap_hexN (payload : List Nat) (hb : ∀ b ∈ payload, b < 256) :
    hexBytes (payload.flatMap (hexN 2)) = payload := by
  induction payload with
  | nil => rfl
  | cons b l ih =>
    rw [List.flatMap_cons, hexBytes_hexN_append b _ (hb b (by simp)),
      ih (fun c hc => hb c (by simp [hc]))]

/-- The line of a record with a 16-bit address and a payload of bytes, field by field. -/
theorem srecLineText_fields (type address : Nat) (data : List Nat)
    (hk : type = 0 ∨ type = 1 ∨ type = 5 ∨ type = 9) (ha : address < 65536)
    (hb : ∀ b ∈ data, b < 256) :
    srecLineText type address data.length data =
      (['S'] ++ hexN 1 type ++ hexN 2 (srecCount type data.length) ++ hexN 4 address) ++
        (data.flatMap (hexN 2) ++ hexN 2 (srecChecksum type address data.length data)) := by
  have ht : type < 16 := by omega
  rw [srecLineText, srecBody, fmtX_02 _ (srecCount_lt type data.length),
    fmtX_02 _ (srecChecksum_lt type address data.length data), fmtX_04 _ ha,
    fmtX_blank_one _ ht, flatMap_fmtX_bytes data hb]
  simp

theorem payloadField_srecLineText (type address : Nat) (data : List Nat)
    (hk : type = 0 ∨ type = 1 ∨ type = 5 ∨ type = 9) (ha : address < 65536)
    (hb : ∀ b ∈ data, b < 256) :
    payloadField (srecLineText type address data.length data) = data.flatMap (hexN 2) := by
  rw [srecLineText_fields type address data hk ha hb, payloadField]
  have h8 : (['S'] ++ hexN 1 type ++ hexN 2 (srecCount type data.length) ++
      hexN 4 address).length = 8 := by
    simp [hexN_length]
  have hlen : ((['S'] ++ hexN 1 type ++ hexN 2 (srecCount type data.length) ++
      hexN 4 address) ++ (data.flatMap (hexN 2) ++
        hexN 2 (srecChecksum type address data.length data))).length - 10 =
      (data.flatMap (hexN 2)).length := by
    simp only [List.length_append, h8, hexN_length]
    omega
  rw [hlen, List.drop_left' h8, List.take_left]

/-! ## No data lost: claim C15 -/

/-- C15: for every buffer of at most 65536 bytes, `convert_to_srec` returns a text, and
hex-decoding the payload fields of its `S1` lines (the characters between the 4-digit address
and the 2-digit checksum) and concatenating them in line order gives back the buffer. -/
theorem convert_to_srec_payload_roundtrip (data : List Nat) (hb : ∀ b ∈ data, b < 256)
    (hn : data.length ≤ 65536) :
    ∃ text, convert_to_srec data = some text ∧
      (recordLines '1' text).flatMap (fun l => hexBytes (payloadField l)) = data := by
  obtain ⟨text, htext, h1, _⟩ := convert_to_srec_recordLines data
  refine ⟨text, htext, ?_⟩
  rw [h1, List.flatMap_map]
  have hall : ∀ r ∈ loopRecords data 0 0 data.length,
      hexBytes (payloadField (srecLineText 1 r.1 r.2.length r.2)) = r.2 := by
    intro r hr
    obtain ⟨ha, hmem, _, _⟩ := loopRecords_mem data hn r hr
    have hbr : ∀ b ∈ r.2, b < 256 := fun b hbm => hb b (hmem b hbm)
    rw [payloadField_srecLineText 1 r.1 r.2 (by simp) ha hbr, hexBytes_flatMap_hexN r.2 hbr]
  have hmap : (loopRecords data 0 0 data.length).map
      (fun r => hexBytes (payloadField (srecLineText 1 r.1 r.2.length r.2))) =
      (loopRecords data 0 0 data.length).map (fun r => r.2) :=
    List.map_congr_left hall
  rw [List.flatMap_def, hmap, ← List.flatMap_def, loopRecords_payloads]

/-- C15 on a 17-byte buffer. -/
theorem convert_to_srec_payload_roundtrip_witness :
    ∃ text, convert_to_srec (List.replicate 17 171) = some text ∧
      (recordLines '1' text).flatMap (fun l => hexBytes (payloadField l)) =
        List.replicate 17 171 :=
  convert_to_srec_payload_roundtrip (List.replicate 17 171) (by decide) (by decide)

/-! ## The result buffer of convert_to_srec: claim C18 -/

theorem s1Lines_length (data : List Nat) (hb : ∀ b ∈ data, b < 256)
    (hn : data.length ≤ 65536) :
    ((loopRecords data 0 0 data.length).flatMap s1Line).length =
      11 * ((data.length + 15) / 16) + 2 * data.length := by
  have h := length_flatMap_affine 11 2 s1Line (fun r => r.2) (loopRecords data 0 0 data.length)
    (by
      intro r hr
      obtain ⟨ha, hmem, _, _⟩ := loopRecords_mem data hn r hr
      exact srecLine_length 1 r.1 r.2 (by simp) ha (fun b hbm => hb b (hmem b hbm)))
  rw [h, loopRecords_payloads, loopRecords_length]

/-- C18: for every buffer of n ≤ 65536 bytes, `convert_to_srec` returns a text whose length
plus one terminating NUL is at most `16 * n + 64`, the size of the result buffer. -/
theorem convert_to_srec_result_capacity (data : List Nat) (hb : ∀ b ∈ data, b < 256)
    (hn : data.length ≤ 65536) :
    ∃ text, convert_to_srec data = some text ∧
      text.length + 1 ≤ convert_to_srec_buffer_size data.length := by
  refine ⟨_, convert_to_srec_eq data, ?_⟩
  have hH : (srecLine 0 0 5 FIRST_NAME_bytes).length = 21 := by decide
  have hS9 : (srecLine 9 0 0 []).length = 11 := by decide
  have hS5 : (srecLine 5 (((data.length + 15) / 16) % 4294967296) 0 []).length = 11 :=
    srecLine_length 5 _ [] (by simp) (by omega) (by simp)
  simp only [List.length_append, hH, hS9, hS5, s1Lines_length data hb hn,
    convert_to_srec_buffer_size]
  omega

/-- C18 on a 17-byte buffer. -/
theorem convert_to_srec_result_capacity_witness :
    ∃ text, convert_to_srec (List.replicate 17 171) = some text ∧
      text.length + 1 ≤ convert_to_srec_buffer_size (List.replicate 17 171).length :=
  convert_to_srec_result_capacity (List.replicate 17 171) (by decide) (by decide)

/-! ## The width of the address field in the document: claim C13 -/

theorem srecCount_eq (type : Nat) (data : List Nat)
    (hk : type = 0 ∨ type = 1 ∨ type = 5 ∨ type = 9) (hl : data.length ≤ 252)
    (hp : type = 5 ∨ type = 9 → data = []) :
    srecCount type data.length = data.length + 3 := by
  unfold srecCount
  rcases hk with rfl | rfl | rfl | rfl
  · simp; omega
  · simp; omega
  · simp [hp (Or.inl rfl)]
  · simp [hp (Or.inr rfl)]

theorem srecLineText_eq_spec (type address : Nat) (data : List Nat)
    (hk : type = 0 ∨ type = 1 ∨ type = 5 ∨ type = 9) (ha : address < 65536)
    (hb : ∀ b ∈ data, b < 256) (hl : data.length ≤ 252)
    (hp : type = 5 ∨ type = 9 → data = []) :
    srecLineText type address data.length data ++ ['\n'] = srec_line_spec type address data := by
  have hcount := srecCount_eq type data hk hl hp
  have hsum : srecChecksum type address data.length data =
      srec_checksum_spec (data.length + 3) address data := by
    unfold srecChecksum srec_checksum_spec
    rw [hcount]
    generalize data.sum = total
    have h16 : address / 65536 % 256 = 0 := by omega
    split <;> omega
  rw [srecLineText_fields type address data hk ha hb, hcount, hsum]
  simp [srec_line_spec]

theorem srecLineText_length (type address : Nat) (data : List Nat)
    (hk : type = 0 ∨ type = 1 ∨ type = 5 ∨ type = 9) (ha : address < 65536)
    (hb : ∀ b ∈ data, b < 256) :
    (srecLineText type address data.length data).length = 10 + 2 * data.length := by
  have h := srecLine_length type address data hk ha hb
  rw [srecLine_eq, List.length_append] at h
  simp only [List.length_cons, List.length_nil] at h
  omega

theorem srecLineText_count_pairs (type address : Nat) (data : List Nat)
    (hk : type = 0 ∨ type = 1 ∨ type = 5 ∨ type = 9) (ha : address < 65536)
    (hb : ∀ b ∈ data, b < 256) (hl : data.length ≤ 252)
    (hp : type = 5 ∨ type = 9 → data = []) :
    2 * hexVal (((srecLineText type address data.length data).drop 2).take 2) + 4 =
      (srecLineText type address data.length data).length := by
  rw [srecLineText_length type address data hk ha hb]
  have hfield : ((srecLineText type address data.length data).drop 2).take 2 =
      hexN 2 (srecCount type data.length) := by
    rw [srecLineText_fields type address data hk ha hb]
    simp [hexN]
  rw [hfield, hexVal_hexN 2 _ (by norm_num; exact srecCount_lt type data.length),
    srecCount_eq type data hk hl hp]
  omega

/-- C13 (as the specification states it, refuted): on a buffer of 65537 zero bytes the last
Data16 record is written at address 65536 with a 1-byte payload, and its line is
`S1041000000FA`: a 5-digit address field, 14 characters with the newline instead of
11 + 2 * 1, and a byte count of 4 before 9 hex digits. -/
theorem convert_to_srec_wide_address :
    ∃ text, convert_to_srec (List.replicate 65537 0) = some text ∧
      (recordLines '1' text).getLast? = some "S1041000000FA".toList ∧
      "S1041000000FA".toList.length + 1 ≠ 11 + 2 * 1 := by
  obtain ⟨text, htext, h1, _⟩ := convert_to_srec_recordLines (List.replicate 65537 0)
  refine ⟨text, htext, ?_, by decide⟩
  rw [h1, List.getLast?_map, loopRecords, List.getLast?_map, List.getLast?_range,
    List.length_replicate]
  have hk : ¬ ((65537 + 15) / 16 = 0) := by norm_num
  rw [if_neg hk]
  simp only [Option.map_some', List.drop_replicate, List.take_replicate, List.length_replicate]
  have hrec : List.replicate (min 16 (65537 - (0 + 16 * ((65537 + 15) / 16 - 1)))) 0 = [0] := by
    have : min 16 (65537 - (0 + 16 * ((65537 + 15) / 16 - 1))) = 1 := by norm_num
    rw [this]
    rfl
  rw [hrec]
  decide

/-- C13 (amended): for every buffer of at most 65536 bytes, the lines of the text
`convert_to_srec` returns are, each with its newline, the grammar lines (4-digit address
field) of the header, of the Data16 records emitted, of the Count16 record and of the
terminator; each line has 10 + 2 * (its payload length) characters before its newline, and
its byte-count field (digits 2 and 3) equals the number of hex byte pairs that follow it. -/
theorem convert_to_srec_line_widths (data : List Nat) (hb : ∀ b ∈ data, b < 256)
    (hn : data.length ≤ 65536) :
    ∃ text recs, convert_to_srec data = some text ∧ convert_to_srec_records data = some recs ∧
      (textLines text).map (fun l => l ++ ['\n']) =
        [srec_line_spec 0 0 FIRST_NAME_bytes] ++
          recs.map (fun r => srec_line_spec 1 r.1 r.2) ++
          [srec_line_spec 5 recs.length [], srec_line_spec 9 0 []] ∧
      (textLines text).map List.length =
        [10 + 2 * FIRST_NAME_bytes.length] ++ recs.map (fun r => 10 + 2 * r.2.length) ++
          [10, 10] ∧
      ∀ line ∈ textLines text, 2 * hexVal ((line.drop 2).take 2) + 4 = line.length := by
  obtain ⟨text, htext, hlines⟩ := convert_to_srec_lines data
  refine ⟨text, _, htext, convert_to_srec_records_eq data, ?_, ?_, ?_⟩
  all_goals
    have hmod : ((data.length + 15) / 16) % 4294967296 = (data.length + 15) / 16 := by omega
    have hk : (data.length + 15) / 16 < 65536 := by omega
    have hgood : ∀ r ∈ loopRecords data 0 0 data.length,
        r.1 < 65536 ∧ (∀ b ∈ r.2, b < 256) ∧ r.2.length ≤ 252 := by
      intro r hr
      obtain ⟨ha, hmem, _, h16⟩ := loopRecords_mem data hn r hr
      exact ⟨ha, fun b hbm => hb b (hmem b hbm), by omega⟩
    rw [hlines, hmod]
  · have hA : srecLineText 0 0 5 FIRST_NAME_bytes ++ ['\n'] =
        srec_line_spec 0 0 FIRST_NAME_bytes := by decide
    have hC : srecLineText 9 0 0 [] ++ ['\n'] = srec_line_spec 9 0 [] := by decide
    have hB : srecLineText 5 ((data.length + 15) / 16) 0 [] ++ ['\n'] =
        srec_line_spec 5 (loopRecords data 0 0 data.length).length [] := by
      rw [loopRecords_length]
      exact srecLineText_eq_spec 5 _ [] (by simp) hk (by simp) (by simp) (by simp)
    have hR : (loopRecords data 0 0 data.length).map
        ((fun l => l ++ ['\n']) ∘ fun r => srecLineText 1 r.1 r.2.length r.2) =
        (loopRecords data 0 0 data.length).map (fun r => srec_line_spec 1 r.1 r.2) := by
      apply List.map_congr_left
      intro r hr
      obtain ⟨ha, hbr, hl⟩ := hgood r hr
      exact srecLineText_eq_spec 1 r.1 r.2 (by simp) ha hbr hl (by simp)
    simp only [List.map_append, List.map_cons, List.map_nil, List.map_map, hA, hB, hC, hR]
  · have hA : (srecLineText 0 0 5 FIRST_NAME_bytes).length =
        10 + 2 * FIRST_NAME_bytes.length := by decide
    have hC : (srecLineText 9 0 0 []).length = 10 := by decide
    have hB : (srecLineText 5 ((data.length + 15) / 16) 0 []).length = 10 :=
      srecLineText_length 5 _ [] (by simp) hk (by simp)
    have hR : (loopRecords data 0 0 data.length).map
        (List.length ∘ fun r => srecLineText 1 r.1 r.2.length r.2) =
        (loopRecords data 0 0 data.length).map (fun r => 10 + 2 * r.2.length) := by
      apply List.map_congr_left
      intro r hr
      obtain ⟨ha, hbr, _⟩ := hgood r hr
      exact srecLineText_length 1 r.1 r.2 (by simp) ha hbr
    simp only [List.map_append, List.map_cons, List.map_nil, List.map_map, hA, hB, hC, hR]
  · intro line hline
    simp only [List.mem_append, List.mem_map, List.mem_cons, List.mem_singleton,
      List.not_mem_nil, or_false] at hline
    rcases hline with ((rfl | ⟨r, hr, rfl⟩) | (rfl | rfl))
    · decide
    · obtain ⟨ha, hbr, hl⟩ := hgood r hr
      exact srecLineText_count_pairs 1 r.1 r.2 (by simp) ha hbr hl (by simp)
    · exact srecLineText_count_pairs 5 _ [] (by simp) hk (by simp) (by simp) (by simp)
    · decide

/-- C13 (amended) on a 17-byte buffer. -/
theorem convert_to_srec_line_widths_witness :
    ∃ text recs, convert_to_srec (List.replicate 17 171) = some text ∧
      convert_to_srec_records (List.replicate 17 171) = some recs ∧
      (textLines text).map (fun l => l ++ ['\n']) =
        [srec_line_spec 0 0 FIRST_NAME_bytes] ++
          recs.map (fun r => srec_line_spec 1 r.1 r.2) ++
          [srec_line_spec 5 recs.length [], srec_line_spec 9 0 []] ∧
      (textLines text).map List.length =
        [10 + 2 * FIRST_NAME_bytes.length] ++ recs.map (fun r => 10 + 2 * r.2.length) ++
          [10, 10] ∧
      ∀ line ∈ textLines text, 2 * hexVal ((line.drop 2).take 2) + 4 = line.length :=
  convert_to_srec_line_widths (List.replicate 17 171) (by decide) (by decide)

/-! ## Lemmas on the lines of the assembly listing -/

theorem assembly_line_spec_eq (group : List Nat) :
    assembly_line_spec group = assembly_line_text_spec group ++ ['\n'] := by
  simp [assembly_line_spec, assembly_line_text_spec]

theorem mem_intercalate (sep : List Char) (c : Char) (xs : List (List Char))
    (h : c ∈ sep.intercalate xs) : c ∈ sep ∨ ∃ x ∈ xs, c ∈ x := by
  induction xs with
  | nil => simp [List.intercalate] at h
  | cons x xs ih =>
    by_cases hxs : xs = []
    · subst hxs
      simp [List.intercalate] at h
      exact Or.inr ⟨x, by simp, h⟩
    · rw [intercalate_cons_of_ne_nil sep x xs hxs] at h
      simp only [List.mem_append] at h
      rcases h with (h | h) | h
      · exact Or.inr ⟨x, by simp, h⟩
      · exact Or.inl h
      · rcases ih h with h1 | ⟨y, hy, hc⟩
        · exact Or.inl h1
        · exact Or.inr ⟨y, by simp [hy], hc⟩

theorem hexN_no_newline (w v : Nat) : '\n' ∉ hexN w v := by
  induction w generalizing v with
  | zero => simp [hexN]
  | succ w ih =>
    intro h
    simp only [hexN, List.mem_append, List.mem_singleton] at h
    rcases h with h | h
    · exact ih _ h
    · exact hexDigit_ne_newline _ h.symm

theorem assembly_line_text_no_newline (group : List Nat) :
    '\n' ∉ assembly_line_text_spec group := by
  intro h
  simp only [assembly_line_text_spec, List.mem_append] at h
  rcases h with h | h
  · exact absurd h (by decide)
  · rcases mem_intercalate _ _ _ h with h1 | ⟨x, hx, hc⟩
    · exact absurd h1 (by decide)
    · obtain ⟨b, _, rfl⟩ := List.mem_map.mp hx
      rcases List.mem_cons.mp hc with h2 | h2
      · exact absurd h2 (by decide)
      · exact hexN_no_newline 2 b h2

theorem intercalate_tokens_length (group : List Nat) (hne : group ≠ []) :
    (", ".toList.intercalate (group.map (fun b => '$' :: hexN 2 b))).length + 2 =
      5 * group.length := by
  induction group with
  | nil => exact absurd rfl hne
  | cons b l ih =>
    by_cases hl : l = []
    · subst hl
      simp [List.intercalate, hexN_length]
    · have hne1 : l.map (fun b => '$' :: hexN 2 b) ≠ [] := by
        intro h
        exact hl (List.map_eq_nil_iff.mp h)
      have ih1 := ih hl
      have h2 : (", ".toList).length = 2 := by decide
      rw [List.map_cons, intercalate_cons_of_ne_nil _ _ _ hne1]
      simp only [List.length_append, List.length_cons, hexN_length, h2]
      omega

theorem assembly_line_spec_length (group : List Nat) (hne : group ≠ []) :
    (assembly_line_spec group).length = 4 + 5 * group.length := by
  have h := intercalate_tokens_length group hne
  have h5 : ("dc.b\t".toList).length = 5 := by decide
  simp only [assembly_line_spec, List.length_append, h5, List.length_cons, List.length_nil]
  omega

theorem chunk_length (data : List Nat) (i : Nat) :
    (chunk data i).length = min 16 (data.length - 16 * i) := by
  rw [chunk_eq, List.length_take, List.length_drop]

/-- The listing `convert_to_assembly` returns and its lines, for every buffer of bytes. -/
theorem convert_to_assembly_lines (data : List Nat) (hb : ∀ b ∈ data, b < 256) :
    convert_to_assembly true data =
        some ((List.range ((data.length + 15) / 16)).flatMap
          (fun i => assembly_line_spec (chunk data i))) ∧
      textLines ((List.range ((data.length + 15) / 16)).flatMap
          (fun i => assembly_line_spec (chunk data i))) =
        (List.range ((data.length + 15) / 16)).map
          (fun i => assembly_line_text_spec (chunk data i)) := by
  constructor
  · have h := assembly_loop_eq data hb data.length 0 [] (by omega)
    simp only [Nat.mul_zero, Nat.sub_zero, List.nil_append, Nat.zero_add] at h
    simp only [convert_to_assembly, if_true, h]
  · have key := textLines_flatMap
      ((List.range ((data.length + 15) / 16)).map
        (fun i => assembly_line_text_spec (chunk data i)))
      (by
        intro l hl
        obtain ⟨i, _, rfl⟩ := List.mem_map.mp hl
        exact assembly_line_text_no_newline _)
    rw [List.flatMap_map] at key
    have hfun : (fun i => assembly_line_spec (chunk data i)) =
        fun i => assembly_line_text_spec (chunk data i) ++ ['\n'] := by
      funext i
      exact assembly_line_spec_eq _
    rw [hfun, key]

/-! ## The assembly listing: claims C12, C17 and C19 -/

/-- C12: for every buffer of n bytes, the text `convert_to_assembly` returns consists of
exactly ceil(n/16) lines, each ended by a newline, the i-th being `dc.b`, a tab and the
`$XX` tokens of chunk i joined by a comma and a blank; when n is a positive multiple of 16
every chunk, hence every line, has exactly 16 tokens. -/
theorem convert_to_assembly_line_count (data : List Nat) (hb : ∀ b ∈ data, b < 256) :
    ∃ text, convert_to_assembly true data = some text ∧
      (textLines text).length = (data.length + 15) / 16 ∧
      text = (textLines text).flatMap (fun l => l ++ ['\n']) ∧
      textLines text =
        (List.range ((data.length + 15) / 16)).map
          (fun i => assembly_line_text_spec (chunk data i)) ∧
      (0 < data.length → data.length % 16 = 0 →
        ∀ i, i < (data.length + 15) / 16 → (chunk data i).length = 16) := by
  obtain ⟨htext, hlines⟩ := convert_to_assembly_lines data hb
  refine ⟨_, htext, ?_, ?_, hlines, ?_⟩
  · rw [hlines, List.length_map, List.length_range]
  · rw [hlines, List.flatMap_map]
    congr 1
  · intro _ hmul i hi
    rw [chunk_length]
    omega

/-- C12 on a 16-byte buffer: exactly one line, of 16 tokens. -/
theorem convert_to_assembly_line_count_witness :
    ∃ text, convert_to_assembly true (List.replicate 16 171) = some text ∧
      (textLines text).length = ((List.replicate 16 171).length + 15) / 16 ∧
      text = (textLines text).flatMap (fun l => l ++ ['\n']) ∧
      textLines text =
        (List.range (((List.replicate 16 171).length + 15) / 16)).map
          (fun i => assembly_line_text_spec (chunk (List.replicate 16 171) i)) ∧
      (0 < (List.replicate 16 171).length → (List.replicate 16 171).length % 16 = 0 →
        ∀ i, i < ((List.replicate 16 171).length + 15) / 16 →
          (chunk (List.replicate 16 171) i).length = 16) :=
  convert_to_assembly_line_count (List.replicate 16 171) (by decide)

theorem assembly_listing_length (data : List Nat) :
    ((List.range ((data.length + 15) / 16)).flatMap
      (fun i => assembly_line_spec (chunk data i))).length =
      4 * ((data.length + 15) / 16) + 5 * data.length := by
  have h := length_flatMap_affine 4 5 (fun i => assembly_line_spec (chunk data i))
    (fun i => chunk data i) (List.range ((data.length + 15) / 16))
    (by
      intro i hi
      have hi1 := List.mem_range.mp hi
      apply assembly_line_spec_length
      intro hnil
      have hlen := congrArg List.length hnil
      rw [chunk_length] at hlen
      simp only [List.length_nil] at hlen
      omega)
  have hchunks : (List.range ((data.length + 15) / 16)).flatMap (fun i => chunk data i) =
      data := by
    have hfun : (fun i => chunk data i) = fun i => (data.drop (16 * i)).take 16 := by
      funext i
      exact chunk_eq data i
    rw [hfun]
    exact flatMap_chunks _ data (by omega)
  rw [h, hchunks, List.length_range]

/-- The result buffer of `convert_to_assembly` is large enough for every non-empty buffer of
bytes. -/
theorem convert_to_assembly_capacity_nonempty (data : List Nat) (hb : ∀ b ∈ data, b < 256)
    (hpos : 0 < data.length) :
    ∃ text, convert_to_assembly true data = some text ∧
      text.length + 1 ≤ convert_to_assembly_buffer_size data.length := by
  refine ⟨_, (convert_to_assembly_lines data hb).1, ?_⟩
  rw [assembly_listing_length, convert_to_assembly_buffer_size]
  omega

/-- C17 (the code at a failing input): on the empty buffer `convert_to_assembly` allocates
`0 * 16 = 0` bytes and builds the empty text, whose terminating NUL alone needs 1 byte. -/
theorem convert_to_assembly_empty_overrun :
    convert_to_assembly true [] = some [] ∧
      convert_to_assembly_buffer_size ([] : List Nat).length = 0 ∧
      ¬ (([] : List Char).length + 1 ≤
        convert_to_assembly_buffer_size ([] : List Nat).length) := by
  refine ⟨?_, ?_, ?_⟩ <;> decide

/-! ## No truncation of a listing line -/

theorem assembly_line_unbounded_eq (data : List Nat) (i len : Nat) :
    assembly_line_unbounded data i len =
      "dc.b\t".toList ++ (List.range len).flatMap (asmToken data i len) :=
  foldl_append_flatMap (asmToken data i len) (List.range len) "dc.b\t".toList

theorem assembly_loop_unbounded_eq (data : List Nat) (hb : ∀ b ∈ data, b < 256) (fuel : Nat) :
    ∀ (i : Nat) (buf : List Char),
      assembly_loop data fuel i buf = assembly_loop_unbounded data fuel i buf := by
  induction fuel with
  | zero =>
    intro i buf
    rfl
  | succ fuel ih =>
    intro i buf
    have hlen : (if i + 16 > data.length then data.length - i else 16) ≤ 16 := by
      split <;> omega
    simp only [assembly_loop, assembly_loop_unbounded]
    rw [assembly_line_eq data hb i _ hlen, assembly_line_unbounded_eq, ih]

/-- C19: for every buffer of bytes, each line `convert_to_assembly` builds (the content of
`line_buffer` for the chunk at offset `16 * t`) has at most 84 characters, 85 with its NUL,
within `LINE_BUFFER_SIZE = 86`, and the text returned is that of the same algorithm run with
an unbounded line buffer. -/
theorem convert_to_assembly_no_truncation (data : List Nat) (hb : ∀ b ∈ data, b < 256) :
    (∀ t, 16 * t < data.length →
      (assembly_line data (16 * t)
        (if 16 * t + 16 > data.length then data.length - 16 * t else 16)).length ≤ 84) ∧
      84 + 1 ≤ LINE_BUFFER_SIZE ∧
      convert_to_assembly true data = convert_to_assembly_unbounded true data ∧
      (convert_to_assembly true data).isSome = true := by
  refine ⟨?_, by decide, ?_, ?_⟩
  · intro t ht
    rw [assembly_line_chunk data hb t ht, assembly_line_spec_length]
    · rw [chunk_length]
      omega
    · intro hnil
      have hlen := congrArg List.length hnil
      rw [chunk_length] at hlen
      simp only [List.length_nil] at hlen
      omega
  · simp only [convert_to_assembly, convert_to_assembly_unbounded, if_true]
    exact assembly_loop_unbounded_eq data hb data.length 0 []
  · rw [(convert_to_assembly_lines data hb).1]
    rfl

/-- C19 on a 33-byte buffer (two full lines and a line of one byte). -/
theorem convert_to_assembly_no_truncation_witness :
    (∀ t, 16 * t < (List.replicate 33 255).length →
      (assembly_line (List.replicate 33 255) (16 * t)
        (if 16 * t + 16 > (List.replicate 33 255).length
          then (List.replicate 33 255).length - 16 * t else 16)).length ≤ 84) ∧
      84 + 1 ≤ LINE_BUFFER_SIZE ∧
      convert_to_assembly true (List.replicate 33 255) =
        convert_to_assembly_unbounded true (List.replicate 33 255) ∧
      (convert_to_assembly true (List.replicate 33 255)).isSome = true :=
  convert_to_assembly_no_truncation (List.replicate 33 255) (by decide)

/-! ## Termination of the chunk loop: claim C20 -/

theorem srec_loop_step (data : List Nat) (fuel : Nat) (st : SrecState)
    (hrem : 0 < st.remaining) :
    srec_loop data (fuel + 1) st =
      match write_srec 1 st.address (data.drop st.index) (srec_data_len st.remaining) with
      | none => none
      | some srec_line => srec_loop data fuel (srec_advance data st srec_line) := by
  simp only [srec_loop, hrem, gt_iff_lt, if_true, srec_data_len, srec_advance]

theorem srec_loop_out_of_fuel (data : List Nat) (fuel : Nat) :
    ∀ st : SrecState, fuel < (st.remaining + 15) / 16 → srec_loop data fuel st = none := by
  induction fuel with
  | zero =>
    intro st h
    have hpos : 0 < st.remaining := by omega
    simp [srec_loop, hpos]
  | succ fuel ih =>
    intro st h
    have hpos : 0 < st.remaining := by omega
    have hlen : srec_data_len st.remaining = 16 := by
      unfold srec_data_len
      split <;> omega
    rw [srec_loop_step data fuel st hpos,
      write_srec_supported 1 st.address (data.drop st.index) _ (by simp)]
    simp only []
    apply ih
    simp only [srec_advance, hlen]
    omega

/-- C20: in every iteration of the loop of `convert_to_srec` (every state with bytes
remaining) the chunk length is between 1 and 16 and at most `remaining`, so `remaining`
strictly decreases without underflow and the iteration hands over to the advanced state;
from the initial state the loop ends, with `remaining = 0` and `index = n`, exactly when it
is given at least ceil(n/16) iterations, and `convert_to_srec` ends its loop in that state
with ceil(n/16) iterations counted. -/
theorem srec_loop_terminates (data : List Nat) :
    (∀ (fuel : Nat) (st : SrecState), 0 < st.remaining →
      1 ≤ srec_data_len st.remaining ∧ srec_data_len st.remaining ≤ 16 ∧
      srec_data_len st.remaining ≤ st.remaining ∧
      st.remaining - srec_data_len st.remaining < st.remaining ∧
      ∃ srec_line,
        write_srec 1 st.address (data.drop st.index) (srec_data_len st.remaining) =
          some srec_line ∧
        srec_loop data (fuel + 1) st = srec_loop data fuel (srec_advance data st srec_line)) ∧
    (∀ (fuel : Nat) (header_line : List Char), (data.length + 15) / 16 ≤ fuel →
      ∃ st, srec_loop data fuel (srec_init data header_line) = some st ∧
        st.remaining = 0 ∧ st.index = data.length ∧
        st.s1_records.length = (data.length + 15) / 16) ∧
    (∀ (fuel : Nat) (header_line : List Char), fuel < (data.length + 15) / 16 →
      srec_loop data fuel (srec_init data header_line) = none) ∧
    ∃ st, convert_to_srec_state data = some st ∧ st.remaining = 0 ∧
      st.index = data.length ∧ st.s1_count = ((data.length + 15) / 16) % 4294967296 ∧
      st.s1_records.length = (data.length + 15) / 16 := by
  refine ⟨?_, ?_, ?_, ?_⟩
  · intro fuel st hrem
    have hlen : srec_data_len st.remaining = min st.remaining 16 := by
      unfold srec_data_len
      split <;> omega
    refine ⟨by omega, by omega, by omega, by omega, _,
      write_srec_supported 1 st.address (data.drop st.index) _ (by simp), ?_⟩
    rw [srec_loop_step data fuel st hrem,
      write_srec_supported 1 st.address (data.drop st.index) _ (by simp)]
  · intro fuel header_line hfuel
    refine ⟨_, srec_loop_eq data fuel 0 0 data.length 0 _ _ (by omega) hfuel (by norm_num)
      (by norm_num), rfl, rfl, ?_⟩
    simp [loopRecords_length]
  · intro fuel header_line hfuel
    exact srec_loop_out_of_fuel data fuel _ hfuel
  · refine ⟨_, convert_to_srec_state_eq data, rfl, rfl, ?_, ?_⟩
    · simp
    · simp [loopRecords_length]

end EncodeInput
